import Mathlib

/-!
Verification development for the audio-ingest Lambda handler
(`lambda_function.py`).  Python `bytes` values are modelled as `List Nat`
(each element a byte value), Python `str` values as `List Char`.  The
filesystem- and process-effects of `convert_audio_to_wav` are modelled by an
explicit outcome parameter together with a record of the observable results
(return value, whether the temporary input file was removed).  The S3 client
is modelled by recording the `put_object` calls the handler makes.
-/

/-- Shorthand for the model of Python strings. -/
abbrev LC : Type := List Char

/-! ## Generic list machinery (models of Python bytes/str primitives) -/

/-- Boolean test that `p` is a prefix of `l` (leftmost-match building block). -/
def isPre [DecidableEq α] : List α → List α → Bool
  | [], _ => true
  | _ :: _, [] => false
  | a :: p, b :: l => if a = b then isPre p l else false

/-- Model of the Python containment test `p in l` for `bytes`/`str`
(substring occurrence). -/
def containsS [DecidableEq α] (p : List α) : List α → Bool
  | [] => isPre p []
  | b :: l => isPre p (b :: l) || containsS p l

/-- Model of Python `l.split(sep, 1)` guarded by `sep in l`: `some (x, y)`
splits at the first occurrence of `sep`, `none` when `sep` does not occur. -/
def splitFirst [DecidableEq α] (sep : List α) : List α → Option (List α × List α)
  | [] => if isPre sep [] then some ([], []) else none
  | b :: l =>
    if isPre sep (b :: l) then some ([], List.drop sep.length (b :: l))
    else
      match splitFirst sep l with
      | some (x, y) => some (b :: x, y)
      | none => none

/-- No occurrence of `sep` starts strictly inside `l` when `l` is written
directly before another copy of `sep` (rules out matches straddling the
boundary between a multipart segment and the following delimiter). -/
def noStraddleB [DecidableEq α] (sep : List α) : List α → Bool
  | [] => true
  | a :: l => !(isPre sep (a :: l ++ sep)) && noStraddleB sep l

/-- No occurrence of `sep` anywhere in `l` (for nonempty `sep`). -/
def noOccurB [DecidableEq α] (sep : List α) : List α → Bool
  | [] => true
  | a :: l => !(isPre sep (a :: l)) && noOccurB sep l

/-- Fuelled worker for `pySplit`; the fuel only serves to make the
recursion structural, `pySplit` always supplies enough. -/
def pySplitF [DecidableEq α] (sep : List α) : Nat → List α → List α → List (List α)
  | _, acc, [] => [acc.reverse]
  | 0, acc, b :: l => [acc.reverse ++ (b :: l)]
  | f + 1, acc, b :: l =>
    if isPre sep (b :: l) then acc.reverse :: pySplitF sep f [] (List.drop (sep.length - 1) l)
    else pySplitF sep f (b :: acc) l

/-- Model of Python `body.split(sep)` for a nonempty separator: leftmost,
non-overlapping matches. -/
def pySplit [DecidableEq α] (sep body : List α) : List (List α) :=
  pySplitF sep body.length [] body

/-- Membership test in a byte/character set. -/
def inSetB [DecidableEq α] (S : List α) (a : α) : Bool := decide (a ∈ S)

/-- Model of Python `l.rstrip(chars)`: remove every trailing element that is
a member of the set `S`. -/
def rstripSet [DecidableEq α] (S : List α) (l : List α) : List α :=
  (l.reverse.dropWhile (inSetB S)).reverse

/-- Model of a Python `dict` assignment `m[k] = v` on an association list:
replace in place if the key exists, else append. -/
def upsert [DecidableEq κ] (k : κ) (v : ν) : List (κ × ν) → List (κ × ν)
  | [] => [(k, v)]
  | (k0, v0) :: m => if k = k0 then (k, v) :: m else (k0, v0) :: upsert k v m

/-- Association-list lookup (model of Python `dict` access). -/
def lookupA [DecidableEq κ] : List (κ × ν) → κ → Option ν
  | [], _ => none
  | (k0, v0) :: m, k => if k = k0 then some v0 else lookupA m k

/-! ## Python string primitives -/

/-- Code points Python considers whitespace for `str.strip()`. -/
def pyWhiteSet : List Nat :=
  [9, 10, 11, 12, 13, 28, 29, 30, 31, 32, 133, 160, 5760,
   8192, 8193, 8194, 8195, 8196, 8197, 8198, 8199, 8200, 8201, 8202,
   8232, 8233, 8239, 8287, 12288]

/-- Whitespace test used by the model of `str.strip()`. -/
def pyWhite (c : Char) : Bool := pyWhiteSet.contains c.toNat

/-- Model of Python `s.strip()` with no argument: remove leading and
trailing whitespace. -/
def pyStrip (s : LC) : LC :=
  ((s.dropWhile pyWhite).reverse.dropWhile pyWhite).reverse

/-- Model of Python `s.strip(c)` for a single-character argument set
(used for `.strip(chr(34))` on the boundary token). -/
def stripChar (c : Char) (s : LC) : LC :=
  ((s.dropWhile (fun x => x == c)).reverse.dropWhile (fun x => x == c)).reverse

/-- Quote character `chr(34)`. -/
def qc : Char := Char.ofNat 34

/-- Hyphen character. -/
def hyCh : Char := Char.ofNat 45

/-- Space character. -/
def spCh : Char := Char.ofNat 32

/-- Carriage-return character. -/
def crCh : Char := Char.ofNat 13

/-- Line-feed character. -/
def lfCh : Char := Char.ofNat 10

/-- Semicolon character. -/
def semiCh : Char := Char.ofNat 59

/-- Code points of the reserved set `< > : " / \ | *` removed by
`re.sub(..., "", s)` in the naming logic (line 219 of the source). -/
def resSet : List Nat := [60, 62, 58, 34, 47, 92, 124, 42]

/-- Membership test for the reserved character class. -/
def reservedCh (c : Char) : Bool := resSet.contains c.toNat

/-- Model of `re.sub(r'[<>:"/\\|*]', "", s)`. -/
def filterReserved (s : LC) : LC := s.filter (fun c => !(reservedCh c))

/-- Model of `s.replace(" ", "")`: delete every space character. -/
def remSpaces (s : LC) : LC := s.filter (fun c => !(c == spCh))

/-! ## UTF-8 encoding and decoding -/

/-- UTF-8 encoding of one scalar value. -/
def utf8EncodeCh (c : Char) : List Nat :=
  let n := c.toNat
  if n < 128 then [n]
  else if n < 2048 then [192 + n / 64, 128 + n % 64]
  else if n < 65536 then [224 + n / 4096, 128 + (n / 64) % 64, 128 + n % 64]
  else [240 + n / 262144, 128 + (n / 4096) % 64, 128 + (n / 64) % 64, 128 + n % 64]

/-- Model of Python `s.encode('utf-8')`. -/
def strBytes : LC → List Nat
  | [] => []
  | c :: s => utf8EncodeCh c ++ strBytes s

/-- Continuation-byte test (0x80..0xBF). -/
def isContB (b : Nat) : Bool := 128 ≤ b && b ≤ 191

/-- Valid second byte of a three-byte sequence headed by `b`
(excludes overlong forms and surrogates, as CPython does). -/
def cont2ok (b b2 : Nat) : Bool :=
  if b = 224 then 160 ≤ b2 && b2 ≤ 191
  else if b = 237 then 128 ≤ b2 && b2 ≤ 159
  else isContB b2

/-- Valid second byte of a four-byte sequence headed by `b`. -/
def cont4ok (b b2 : Nat) : Bool :=
  if b = 240 then 144 ≤ b2 && b2 ≤ 191
  else if b = 244 then 128 ≤ b2 && b2 ≤ 143
  else isContB b2

/-- Model of Python `bs.decode('utf-8', errors='ignore')`: total, never
raises; invalid sequences are dropped (the maximal valid subpart is skipped
and decoding resumes at the offending byte). -/
def utf8DecodeIgnore : List Nat → List Char
  | [] => []
  | [b] => if b < 128 then [Char.ofNat b] else []
  | b :: b2 :: r2 =>
    if b < 128 then Char.ofNat b :: utf8DecodeIgnore (b2 :: r2)
    else if b < 194 then utf8DecodeIgnore (b2 :: r2)
    else if b < 224 then
      (if isContB b2 then Char.ofNat ((b - 192) * 64 + (b2 - 128)) :: utf8DecodeIgnore r2
       else utf8DecodeIgnore (b2 :: r2))
    else if b < 240 then
      (if cont2ok b b2 then
        match r2 with
        | [] => []
        | b3 :: r3 =>
          if isContB b3 then
            Char.ofNat ((b - 224) * 4096 + (b2 - 128) * 64 + (b3 - 128)) :: utf8DecodeIgnore r3
          else utf8DecodeIgnore (b3 :: r3)
       else utf8DecodeIgnore (b2 :: r2))
    else if b < 245 then
      (if cont4ok b b2 then
        match r2 with
        | [] => []
        | b3 :: r3 =>
          if isContB b3 then
            match r3 with
            | [] => []
            | b4 :: r4 =>
              if isContB b4 then
                Char.ofNat ((b - 240) * 262144 + (b2 - 128) * 4096 + (b3 - 128) * 64 + (b4 - 128))
                  :: utf8DecodeIgnore r4
              else utf8DecodeIgnore (b4 :: r4)
          else utf8DecodeIgnore (b3 :: r3)
       else utf8DecodeIgnore (b2 :: r2))
    else utf8DecodeIgnore (b2 :: r2)

/-! ## The multipart parser (`parse_multipart`, lines 17-55) -/

/-- Bytes of `\r\n`. -/
def crlfB : List Nat := [13, 10]

/-- Bytes of the header/content separator `\r\n\r\n`. -/
def dcrlfB : List Nat := [13, 10, 13, 10]

/-- Characters of `Content-Disposition`. -/
def cdC : LC := String.toList "Content-Disposition"

/-- Bytes of `Content-Disposition` (the disposition marker test, line 24). -/
def cdB : List Nat := strBytes cdC

/-- Characters of the literal `filename=` (file-upload test, line 43). -/
def fnEqC : LC := String.toList "filename="

/-- Characters of the literal `name="` scanned for by the regex
`name="([^"]+)"` (line 36). -/
def nameEqC : LC := String.toList "name=" ++ [qc]

/-- Byte set of `b'\r\n--'` as used by `content.rstrip(b'\r\n--')`
(lines 45 and 52): `rstrip` treats its argument as a set of byte values. -/
def stripSetB : List Nat := [13, 10, 45]

/-- One decoded file attachment: raw content bytes plus the decoded header
block, exactly the dictionary stored by the parser (lines 46-49). -/
structure FileAtt where
  content : List Nat
  headers : LC
deriving DecidableEq

/-- Attempt of the regex `name="([^"]+)"` at the current position: the
literal `name="`, then one or more non-quote characters, then `"`. -/
def tryNameAt (s : LC) : Option LC :=
  if isPre nameEqC s then
    let after := List.drop nameEqC.length s
    let cap := after.takeWhile (fun c => !(c == qc))
    if cap = [] then none
    else if isPre [qc] (List.drop cap.length after) then some cap else none
  else none

/-- Model of `re.search(r'name="([^"]+)"', headers_str)`: first position
(left to right) at which the whole pattern matches. -/
def reSearchName : LC → Option LC
  | [] => none
  | c :: s =>
    match tryNameAt (c :: s) with
    | some v => some v
    | none => reSearchName s

/-- Processing of a single segment of the split body (loop body,
lines 23-53): skip segments without the disposition marker, without a
double-CRLF, or without a parsable `name`; store file attachments and text
fields after stripping trailing `\r\n--` bytes. -/
def parsePart (fd : List (LC × LC)) (fs : List (LC × FileAtt)) (part : List Nat) :
    List (LC × LC) × List (LC × FileAtt) :=
  if containsS cdB part then
    match splitFirst dcrlfB part with
    | none => (fd, fs)
    | some (hdrs, content) =>
      let headersStr := utf8DecodeIgnore hdrs
      match reSearchName headersStr with
      | none => (fd, fs)
      | some fieldName =>
        if containsS fnEqC headersStr then
          (fd, upsert fieldName ⟨rstripSet stripSetB content, headersStr⟩ fs)
        else
          (upsert fieldName (utf8DecodeIgnore (rstripSet stripSetB content)) fd, fs)
  else (fd, fs)

/-- Folds `parsePart` over all segments (the `for part in parts` loop). -/
def goParts : List (List Nat) → List (LC × LC) → List (LC × FileAtt) →
    List (LC × LC) × List (LC × FileAtt)
  | [], fd, fs => (fd, fs)
  | p :: ps, fd, fs =>
    match parsePart fd fs p with
    | (fd2, fs2) => goParts ps fd2 fs2

/-- Model of `parse_multipart(body, boundary)` (lines 17-55): split the body
on `('--' + boundary).encode()` and fold the segment processing. -/
def parse_multipart (body : List Nat) (boundary : LC) :
    List (LC × LC) × List (LC × FileAtt) :=
  goParts (pySplit (strBytes (hyCh :: hyCh :: boundary)) body) [] []

/-! ## The audio converter (`convert_audio_to_wav`, lines 57-124) -/

/-- Outcome of the `subprocess.run` invocation of ffmpeg. -/
inductive RunOutcome where
  | exited : Nat → RunOutcome
  | timedOut : RunOutcome
  | raised : RunOutcome
deriving DecidableEq

/-- Observable result of `convert_audio_to_wav`: the boolean return value
and whether the temporary input file created at line 61 was removed before
returning. -/
structure ConvResult where
  success : Bool
  tempInputRemoved : Bool
deriving DecidableEq

/-- Model of `convert_audio_to_wav` (lines 57-124).  `ffmpegFound` abstracts
the probe loop over the candidate paths (lines 69-79); `run` abstracts what
`subprocess.run` does.  The temp input file is unlinked only at line 107,
which is reached only when the subprocess call returns normally: the
missing-executable early return (line 84), the `TimeoutExpired` handler
(lines 119-121) and the generic exception handler (lines 122-124) all return
`False` without unlinking it. -/
def convert_audio_to_wav (ffmpegFound : Bool) (run : RunOutcome) : ConvResult :=
  if ffmpegFound then
    match run with
    | RunOutcome.exited code => { success := code == 0, tempInputRemoved := true }
    | RunOutcome.timedOut => { success := false, tempInputRemoved := false }
    | RunOutcome.raised => { success := false, tempInputRemoved := false }
  else { success := false, tempInputRemoved := false }

/-! ## The handler (`lambda_handler`, lines 126-306) -/

/-- Wall-clock input: the Beijing-time (`UTC+8`) components used by
`datetime.now(beijing_tz).strftime("%Y%m%d-%H%M%S")` (lines 229-232). -/
structure Ts where
  year : Nat
  month : Nat
  day : Nat
  hour : Nat
  minute : Nat
  second : Nat
deriving DecidableEq

/-- Decimal digit character. -/
def digCh (k : Nat) : Char :=
  if k = 0 then Char.ofNat 48
  else if k = 1 then Char.ofNat 49
  else if k = 2 then Char.ofNat 50
  else if k = 3 then Char.ofNat 51
  else if k = 4 then Char.ofNat 52
  else if k = 5 then Char.ofNat 53
  else if k = 6 then Char.ofNat 54
  else if k = 7 then Char.ofNat 55
  else if k = 8 then Char.ofNat 56
  else Char.ofNat 57

/-- Fuelled decimal rendering worker (fuel only makes recursion
structural). -/
def decDigsF : Nat → Nat → LC → LC
  | 0, n, acc => digCh (n % 10) :: acc
  | f + 1, n, acc => if n < 10 then digCh n :: acc else decDigsF f (n / 10) (digCh (n % 10) :: acc)

/-- Decimal rendering of a natural number. -/
def decDigs (n : Nat) : LC := decDigsF n n []

/-- Zero-padded two-digit field of `strftime` (`%m`, `%d`, `%H`, `%M`, `%S`). -/
def pad2 (n : Nat) : LC := if n < 10 then [digCh 0, digCh n] else decDigs n

/-- Zero-padded four-digit year field of `strftime` (`%Y`). -/
def pad4 (n : Nat) : LC :=
  if n < 10 then [digCh 0, digCh 0, digCh 0, digCh n]
  else if n < 100 then [digCh 0, digCh 0] ++ decDigs n
  else if n < 1000 then digCh 0 :: decDigs n
  else decDigs n

/-- Model of `strftime("%Y%m%d-%H%M%S")` on the Beijing-time components. -/
def formatTs (t : Ts) : LC :=
  pad4 t.year ++ pad2 t.month ++ pad2 t.day ++ [hyCh] ++
    pad2 t.hour ++ pad2 t.minute ++ pad2 t.second

/-- Placeholder `未命名` substituted for an empty sanitized text (line 220). -/
def untitledC : LC := String.toList "未命名"

/-- Lines 219-220: `preview = re.sub(r'[<>:"/\\|*]', "", text)` followed by
`preview = preview or "未命名"`. -/
def rawPreviewOf (text : LC) : LC :=
  if filterReserved text = [] then untitledC else filterReserved text

/-- Line 221: `safe_preview = preview.replace(" ", "").strip()`. -/
def safePreviewOf (text : LC) : LC := pyStrip (remSpaces (rawPreviewOf text))

/-- Line 223: `safe_dialect = re.sub(r'[<>:"/\\|*]', "", dialect) if dialect
else "unknown"` — the `unknown` substitution is keyed on `dialect` being
empty before sanitization. -/
def safeDialectOf (dialect : LC) : LC :=
  if dialect = [] then String.toList "unknown" else filterReserved dialect

/-- Lines 225-227: sanitized transliteration, empty when the input is empty. -/
def safeTranslitOf (tr : LC) : LC :=
  if tr = [] then [] else filterReserved tr

/-- Lines 234-238: assemble the base name, appending `--{transliteration}`
only when the sanitized transliteration is truthy (nonempty). -/
def mkBaseName (text dialect tr : LC) (t : Ts) : LC :=
  if safeTranslitOf tr = [] then
    formatTs t ++ [hyCh] ++ safeDialectOf dialect ++ [hyCh] ++ safePreviewOf text
  else
    formatTs t ++ [hyCh] ++ safeDialectOf dialect ++ [hyCh] ++ safePreviewOf text ++
      [hyCh, hyCh] ++ safeTranslitOf tr

/-- The `timestamp-dialect-preview` core of the base name, without the
optional transliteration suffix (for statements about its structure). -/
def coreNameOf (text dialect : LC) (t : Ts) : LC :=
  formatTs t ++ [hyCh] ++ safeDialectOf dialect ++ [hyCh] ++ safePreviewOf text

/-- Environment of one handler invocation: the converter-relevant state of
the outside world (ffmpeg presence, subprocess outcome, whether the output
file exists afterwards and its bytes) and the current Beijing time. -/
structure ConvEnv where
  ffmpegFound : Bool
  run : RunOutcome
  wavExists : Bool
  wavData : List Nat
  now : Ts
deriving DecidableEq

/-- One recorded `s3_client.put_object` call. -/
structure S3Put where
  key : LC
  body : List Nat
  contentType : LC
deriving DecidableEq

/-- Observable outcome of the handler: HTTP status code, the `message`
field of the JSON body, and the storage calls made.  (The remaining JSON
fields and CORS headers are response-envelope glue outside the modelled
core.) -/
structure HandlerOut where
  statusCode : Nat
  message : LC
  puts : List S3Put
deriving DecidableEq

/-- Key of the required `text` field. -/
def textK : LC := String.toList "text"

/-- Key of the required `dialect` field. -/
def dialectK : LC := String.toList "dialect"

/-- Key of the required `user_id` field. -/
def userK : LC := String.toList "user_id"

/-- Key of the optional `transliteration` field. -/
def translitK : LC := String.toList "transliteration"

/-- Key of the required file attachment. -/
def fileK : LC := String.toList "file"

/-- Model of `form_data.get(k, '')`. -/
def getD (m : List (LC × LC)) (k : LC) : LC :=
  match lookupA m k with
  | some v => v
  | none => []

/-- Error message of the missing-required-fields response (line 197). -/
def missingMsgC : LC := String.toList "Missing required fields: text, dialect, user_id"

/-- Error message of the missing-file response (line 211). -/
def noFileMsgC : LC := String.toList "No audio file uploaded"

/-- Error message of the missing-boundary response (line 161). -/
def noBoundaryMsgC : LC := String.toList "No boundary found in Content-Type"

/-- Characters of the literal `boundary=` scanned for by the regex
`boundary=([^;]+)` (line 151). -/
def bEqC : LC := String.toList "boundary="

/-- Model of `re.search(r'boundary=([^;]+)', content_type)`: first position
at which the literal `boundary=` is followed by at least one non-semicolon
character; the capture extends greedily to the next semicolon or the end. -/
def reSearchBoundary : LC → Option LC
  | [] => none
  | c :: s =>
    if isPre bEqC (c :: s) then
      match (List.drop bEqC.length (c :: s)).takeWhile (fun x => !(x == semiCh)) with
      | [] => reSearchBoundary s
      | d :: cap => some (d :: cap)
    else reSearchBoundary s

/-- Part of the handler from the parsed form data on (lines 182-306):
extract and strip the fields, validate, name, convert, and upload either the
converted WAV bytes or the original bytes as fallback. -/
def afterParse (fd : List (LC × LC)) (fs : List (LC × FileAtt)) (env : ConvEnv) : HandlerOut :=
  let text := pyStrip (getD fd textK)
  let dialect := pyStrip (getD fd dialectK)
  let user_id := pyStrip (getD fd userK)
  let transliteration := pyStrip (getD fd translitK)
  if text = [] ∨ dialect = [] ∨ user_id = [] then
    { statusCode := 400, message := missingMsgC, puts := [] }
  else
    match lookupA fs fileK with
    | none => { statusCode := 400, message := noFileMsgC, puts := [] }
    | some att =>
      let audio_data := att.content
      let base_name := mkBaseName text dialect transliteration env.now
      let conv := convert_audio_to_wav env.ffmpegFound env.run
      if conv.success && env.wavExists then
        { statusCode := 200,
          message := String.toList "File processed and saved successfully - converted to WAV 16kHz mono",
          puts := [{ key := String.toList "audio/" ++ base_name ++ String.toList ".wav",
                     body := env.wavData,
                     contentType := String.toList "audio/wav" }] }
      else
        { statusCode := 200,
          message := String.toList "File processed and saved successfully - conversion failed, saved original",
          puts := [{ key := String.toList "audio/fallback/" ++ base_name ++ String.toList ".original",
                     body := audio_data,
                     contentType := String.toList "audio/mp4" }] }

/-- Model of `lambda_handler` (lines 126-306).  The HTTP envelope details
(`event` dictionary access, base64 transport decoding) are the excluded
adapter: the model receives the resolved content-type header and the raw
body bytes. -/
def lambda_handler (contentType : LC) (body : List Nat) (env : ConvEnv) : HandlerOut :=
  if containsS (String.toList "multipart/form-data") contentType then
    match reSearchBoundary contentType with
    | none => { statusCode := 400, message := noBoundaryMsgC, puts := [] }
    | some rawB =>
      match parse_multipart body (stripChar qc rawB) with
      | (fd, fs) => afterParse fd fs env
  else
    { statusCode := 400,
      message := String.toList "Expected multipart/form-data, got: " ++ contentType,
      puts := [] }

/-! ## A well-formed multipart request builder (for the decoder claims)

The builder produces the byte layout a standard multipart client emits:
each part is introduced by `--boundary\r\n`, carries a
`Content-Disposition` header naming the field, and ends with `\r\n`; the
body terminates with `--boundary--\r\n`. -/

/-- Characters of `\r\n`. -/
def crlfC : LC := [crCh, lfCh]

/-- Characters of `: form-data; ` (between the disposition marker and the
`name` attribute). -/
def colonFormC : LC := String.toList ": form-data; "

/-- Header line of a text-field part with field name `n`. -/
def hdrC (n : LC) : LC := cdC ++ colonFormC ++ nameEqC ++ n ++ [qc]

/-- Characters of the `Content-Type` header line of the file part. -/
def ctLineC : LC := String.toList "Content-Type: application/octet-stream"

/-- First header line of a file part with field name `n` and filename `fn`. -/
def hdrFileC (n fn : LC) : LC :=
  cdC ++ colonFormC ++ nameEqC ++ n ++ [qc] ++ [semiCh, spCh] ++ fnEqC ++ [qc] ++ fn ++ [qc]

/-- Decoded header block of the file part as the parser sees it. -/
def fileHdrBlockC (n fn : LC) : LC := crlfC ++ hdrFileC n fn ++ crlfC ++ ctLineC

/-- Segment of a text field as it appears between two boundary delimiters. -/
def fieldSeg (n : LC) (v : List Nat) : List Nat :=
  crlfB ++ strBytes (hdrC n) ++ (dcrlfB ++ (v ++ crlfB))

/-- Segment of the file part as it appears between two boundary delimiters. -/
def fileSeg (n fn : LC) (payload : List Nat) : List Nat :=
  strBytes (fileHdrBlockC n fn) ++ (dcrlfB ++ (payload ++ crlfB))

/-- Bytes of the closing `--\r\n` after the final boundary. -/
def tailSegB : List Nat := [45, 45, 13, 10]

/-- Joins segments with the separator interleaved:
`s1 ++ sep ++ s2 ++ sep ++ ... ++ sep ++ tail`. -/
def interJoin (sep tail : List Nat) : List (List Nat) → List Nat
  | [] => tail
  | s :: ss => s ++ (sep ++ interJoin sep tail ss)

/-- All segments of a request with the given text fields and one file part. -/
def segsOfAll (fields : List (LC × List Nat)) (ff fn : LC) (payload : List Nat) :
    List (List Nat) :=
  fields.map (fun f => fieldSeg f.1 f.2) ++ [fileSeg ff fn payload]

/-- Byte body of a well-formed multipart request: text fields (name/value
pairs, values as raw bytes) followed by one file part. -/
def buildBody (boundary : LC) (fields : List (LC × List Nat)) (ff fn : LC)
    (payload : List Nat) : List Nat :=
  strBytes (hyCh :: hyCh :: boundary) ++
    interJoin (strBytes (hyCh :: hyCh :: boundary)) tailSegB (segsOfAll fields ff fn payload)

/-- Character constraints on a field name that make the hand-rolled header
scan recover it: ASCII, no quote, no CR/LF. -/
def charOkName (c : Char) : Bool :=
  c.toNat < 128 && !(c.toNat == 34) && !(c.toNat == 13) && !(c.toNat == 10)

/-- Well-formedness of a field name for this parser: nonempty, safe
characters, and not containing the literal `filename=` (which would make
the part classify as a file upload). -/
def nameOk (n : LC) : Bool :=
  !n.isEmpty && n.all charOkName && !(containsS fnEqC n)

/-- Well-formedness of a filename: safe characters only. -/
def fnOk (fn : LC) : Bool := fn.all charOkName

/-- Scan-safety of a concrete header region `x`: at every position of `x`,
the `name="` literal fails to match within `x` itself (when six characters
remain) or already on its first character (when fewer remain, so a match
would straddle into whatever follows `x`). -/
def skipOk : LC → Bool
  | [] => true
  | c :: rest =>
    (if 6 ≤ (c :: rest).length then !(isPre nameEqC (c :: rest)) else !(c == 'n')) && skipOk rest

/-- Value the parser stores for a text field whose raw content bytes are
`v` in a built body (content block is `v ++ crlf`, then trailing-stripped
and decoded). -/
def fieldVal (v : List Nat) : LC := utf8DecodeIgnore (rstripSet stripSetB (v ++ crlfB))

/-- Accumulated form-data dictionary after processing the given text
fields in order. -/
def fieldsFold (fd : List (LC × LC)) (fields : List (LC × List Nat)) : List (LC × LC) :=
  fields.foldl (fun m f => upsert f.1 (fieldVal f.2) m) fd

/-- Boolean test that `l` ends with the suffix `suf`. -/
def endsS (suf l : LC) : Bool := isPre suf.reverse l.reverse

/-! ## Lemmas: prefixes, containment, and the split of a built body -/

theorem isPre_append_self {α : Type} [DecidableEq α] (p r : List α) : isPre p (p ++ r) = true := by
  induction p with
  | nil => simp [isPre]
  | cons a p ih => simp [isPre, ih]

theorem isPre_append_of_le {α : Type} [DecidableEq α] (p x y : List α) (h : p.length ≤ x.length) :
    isPre p (x ++ y) = isPre p x := by
  induction p generalizing x with
  | nil => simp [isPre]
  | cons a p ih =>
    cases x with
    | nil => simp at h
    | cons b x =>
      simp only [List.cons_append, isPre]
      by_cases hab : a = b
      · simp only [hab, if_true]
        exact ih x (by simpa using h)
      · simp [hab]

theorem isPre_cross {α : Type} [DecidableEq α] (p x y : List α) (c : α) (hc : c ∉ p)
    (h : isPre p (x ++ c :: y) = true) : isPre p x = true := by
  induction p generalizing x with
  | nil => simp [isPre]
  | cons a p ih =>
    cases x with
    | nil =>
      exfalso
      simp only [List.nil_append, isPre] at h
      by_cases hac : a = c
      · exact hc (by simp [hac])
      · simp [hac] at h
    | cons b x =>
      simp only [List.cons_append, isPre] at h ⊢
      by_cases hab : a = b
      · simp only [hab, if_true] at h ⊢
        exact ih x (fun hm => hc (by simp [hm])) h
      · simp [hab] at h

theorem containsS_append_pre {α : Type} [DecidableEq α] (p pre post : List α) (h : isPre p post = true) :
    containsS p (pre ++ post) = true := by
  induction pre with
  | nil =>
    cases post with
    | nil => simpa [containsS]
    | cons b l => simp [containsS, h]
  | cons a pre ih => simp [containsS, ih]

theorem containsS_cross {α : Type} [DecidableEq α] (p x y : List α) (c : α) (hc : c ∉ p)
    (h : containsS p (x ++ c :: y) = true) :
    containsS p x = true ∨ containsS p y = true := by
  induction x with
  | nil =>
    simp only [List.nil_append, containsS, Bool.or_eq_true] at h
    rcases h with h | h
    · cases p with
      | nil => exact Or.inl (by simp [containsS, isPre])
      | cons a p =>
        exfalso
        simp only [isPre] at h
        by_cases hac : a = c
        · exact hc (by simp [hac])
        · simp [hac] at h
    · exact Or.inr h
  | cons b x ih =>
    simp only [List.cons_append, containsS, Bool.or_eq_true] at h
    rcases h with h | h
    · have := isPre_cross p (b :: x) y c hc (by simpa using h)
      exact Or.inl (by simp [containsS, this])
    · rcases ih h with h2 | h2
      · exact Or.inl (by simp [containsS, h2])
      · exact Or.inr h2

theorem splitFirst_exact {α : Type} [DecidableEq α] (sep : List α) (hsep : sep ≠ []) :
    ∀ A C : List α, noStraddleB sep A = true →
      splitFirst sep (A ++ (sep ++ C)) = some (A, C) := by
  intro A
  induction A with
  | nil =>
    intro C _
    cases sep with
    | nil => exact absurd rfl hsep
    | cons s sep =>
      show splitFirst (s :: sep) ([] ++ ((s :: sep) ++ C)) = some ([], C)
      have hp : isPre (s :: sep) (s :: (sep ++ C)) = true := by
        simpa using isPre_append_self (s :: sep) C
      simp only [List.nil_append, List.cons_append, splitFirst, List.append_eq]
      rw [if_pos hp]
      simp
  | cons a A ih =>
    intro C hns
    simp only [noStraddleB, Bool.and_eq_true, Bool.not_eq_true'] at hns
    obtain ⟨h1, h2⟩ := hns
    have hno : isPre sep (a :: (A ++ (sep ++ C))) = false := by
      have e1 : a :: (A ++ (sep ++ C)) = ((a :: A) ++ sep) ++ C := by simp
      rw [e1, isPre_append_of_le sep ((a :: A) ++ sep) C (by simp; omega)]
      simpa using h1
    show splitFirst sep (a :: (A ++ (sep ++ C))) = some (a :: A, C)
    simp only [splitFirst, List.append_eq]
    rw [if_neg (by simp [hno]), ih C h2]

theorem pySplitF_noOcc {α : Type} [DecidableEq α] (sep : List α) :
    ∀ (f : Nat) (l acc : List α), l.length ≤ f → noOccurB sep l = true →
      pySplitF sep f acc l = [acc.reverse ++ l] := by
  intro f
  induction f with
  | zero =>
    intro l acc hl _
    cases l with
    | nil => simp [pySplitF]
    | cons b t => simp at hl
  | succ f ih =>
    intro l acc hl hno
    cases l with
    | nil => simp [pySplitF]
    | cons b t =>
      simp only [noOccurB, Bool.and_eq_true, Bool.not_eq_true'] at hno
      show pySplitF sep (f + 1) acc (b :: t) = [acc.reverse ++ b :: t]
      simp only [pySplitF]
      rw [if_neg (by simp [hno.1]), ih t (b :: acc) (by simpa using hl) hno.2]
      simp

theorem pySplitF_irrel {α : Type} [DecidableEq α] (sep : List α) :
    ∀ (f g : Nat) (l acc : List α), l.length ≤ f → l.length ≤ g →
      pySplitF sep f acc l = pySplitF sep g acc l := by
  intro f
  induction f with
  | zero =>
    intro g l acc hf _
    cases l with
    | nil => cases g <;> simp [pySplitF]
    | cons b t => simp at hf
  | succ f ih =>
    intro g l acc hf hg
    cases l with
    | nil => cases g <;> simp [pySplitF]
    | cons b t =>
      cases g with
      | zero => simp at hg
      | succ g =>
        show pySplitF sep (f + 1) acc (b :: t) = pySplitF sep (g + 1) acc (b :: t)
        simp only [pySplitF]
        by_cases hp : isPre sep (b :: t) = true
        · rw [if_pos hp, if_pos hp]
          have hlb : (List.drop (sep.length - 1) t).length ≤ f := by
            have h1 := List.length_drop (sep.length - 1) t
            have h2 : t.length + 1 ≤ f + 1 := by simpa using hf
            omega
          have hlc : (List.drop (sep.length - 1) t).length ≤ g := by
            have h1 := List.length_drop (sep.length - 1) t
            have h2 : t.length + 1 ≤ g + 1 := by simpa using hg
            omega
          rw [ih g (List.drop (sep.length - 1) t) [] hlb hlc]
        · rw [if_neg hp, if_neg hp]
          exact ih g t (b :: acc) (by simp at hf; omega) (by simp at hg; omega)

theorem pySplitF_seg {α : Type} [DecidableEq α] (sep : List α) (hsep : sep ≠ []) :
    ∀ (A : List α) (f : Nat) (rest acc : List α),
      (A ++ (sep ++ rest)).length ≤ f → noStraddleB sep A = true →
      pySplitF sep f acc (A ++ (sep ++ rest)) =
        (acc.reverse ++ A) :: pySplitF sep rest.length [] rest := by
  intro A
  induction A with
  | nil =>
    intro f rest acc hf _
    cases sep with
    | nil => exact absurd rfl hsep
    | cons s sep =>
      cases f with
      | zero => simp at hf
      | succ f =>
        have hp : isPre (s :: sep) (s :: (sep ++ rest)) = true := by
          simpa using isPre_append_self (s :: sep) rest
        show pySplitF (s :: sep) (f + 1) acc (s :: (sep ++ rest)) =
          (acc.reverse ++ []) :: pySplitF (s :: sep) rest.length [] rest
        simp only [pySplitF]
        rw [if_pos hp]
        have hd : List.drop ((s :: sep).length - 1) (sep ++ rest) = rest := by
          simp
        rw [hd]
        have hr : rest.length ≤ f := by
          simp at hf
          omega
        rw [pySplitF_irrel (s :: sep) f rest.length rest [] hr (le_refl _)]
        simp
  | cons a A ih =>
    intro f rest acc hf hns
    simp only [noStraddleB, Bool.and_eq_true, Bool.not_eq_true'] at hns
    obtain ⟨h1, h2⟩ := hns
    cases f with
    | zero => simp at hf
    | succ f =>
      have hno : isPre sep (a :: (A ++ (sep ++ rest))) = false := by
        have e1 : a :: (A ++ (sep ++ rest)) = ((a :: A) ++ sep) ++ rest := by simp
        rw [e1, isPre_append_of_le sep ((a :: A) ++ sep) rest (by simp; omega)]
        simpa using h1
      show pySplitF sep (f + 1) acc (a :: (A ++ (sep ++ rest))) =
        (acc.reverse ++ a :: A) :: pySplitF sep rest.length [] rest
      simp only [pySplitF]
      rw [if_neg (by simp [hno])]
      rw [ih f rest (a :: acc) (by simp at hf ⊢; omega) h2]
      simp

theorem interJoin_split (sep tail : List Nat) (hsep : sep ≠ []) :
    ∀ (segs : List (List Nat)) (f : Nat),
      (interJoin sep tail segs).length ≤ f →
      (∀ s ∈ segs, noStraddleB sep s = true) → noOccurB sep tail = true →
      pySplitF sep f [] (interJoin sep tail segs) = segs ++ [tail] := by
  intro segs
  induction segs with
  | nil =>
    intro f hf _ htail
    simpa [interJoin] using pySplitF_noOcc sep f tail [] (by simpa [interJoin] using hf) htail
  | cons s segs ih =>
    intro f hf hsegs htail
    show pySplitF sep f [] (s ++ (sep ++ interJoin sep tail segs)) = (s :: segs) ++ [tail]
    rw [pySplitF_seg sep hsep s f (interJoin sep tail segs) []
      (by simpa [interJoin] using hf) (hsegs s (by simp))]
    rw [ih (interJoin sep tail segs).length (le_refl _)
      (fun x hx => hsegs x (by simp [hx])) htail]
    simp

theorem pySplit_build (sep tail : List Nat) (segs : List (List Nat)) (hsep : sep ≠ [])
    (hsegs : ∀ s ∈ segs, noStraddleB sep s = true) (htail : noOccurB sep tail = true) :
    pySplit sep (sep ++ interJoin sep tail segs) = [] :: (segs ++ [tail]) := by
  cases sep with
  | nil => exact absurd rfl hsep
  | cons s sep =>
    have hp : isPre (s :: sep) (s :: (sep ++ interJoin (s :: sep) tail segs)) = true := by
      simpa using isPre_append_self (s :: sep) (interJoin (s :: sep) tail segs)
    show pySplitF (s :: sep) ((s :: (sep ++ interJoin (s :: sep) tail segs)).length) []
      (s :: (sep ++ interJoin (s :: sep) tail segs)) = [] :: (segs ++ [tail])
    simp only [List.length_cons, pySplitF]
    rw [if_pos hp]
    have hd : List.drop (sep.length + 1 - 1) (sep ++ interJoin (s :: sep) tail segs) =
        interJoin (s :: sep) tail segs := by
      simp
    rw [hd]
    have hr : (interJoin (s :: sep) tail segs).length ≤
        (sep ++ interJoin (s :: sep) tail segs).length := by
      simp
    rw [pySplitF_irrel (s :: sep) ((sep ++ interJoin (s :: sep) tail segs).length)
      ((interJoin (s :: sep) tail segs).length) (interJoin (s :: sep) tail segs) []
      hr (le_refl _)]
    rw [interJoin_split (s :: sep) tail hsep segs ((interJoin (s :: sep) tail segs).length)
      (le_refl _) hsegs htail]
    simp

/-! ## Lemmas: rstrip, dictionaries, take/drop -/

theorem dropWhile_append_all {α : Type} (p : α → Bool) (l₁ l₂ : List α) (h : l₁.all p = true) :
    (l₁ ++ l₂).dropWhile p = l₂.dropWhile p := by
  induction l₁ with
  | nil => simp
  | cons a l ih =>
    simp only [List.all_cons, Bool.and_eq_true] at h
    simp [List.dropWhile, h.1, ih h.2]

theorem takeWhile_append_all {α : Type} (p : α → Bool) (l m : List α) (h : l.all p = true) :
    (l ++ m).takeWhile p = l ++ m.takeWhile p := by
  induction l with
  | nil => simp
  | cons a l ih =>
    simp only [List.all_cons, Bool.and_eq_true] at h
    simp [List.takeWhile, h.1, ih h.2]

theorem dropWhile_head_false {α : Type} (p : α → Bool) (l : List α) (c : α) (t : List α)
    (h : l.dropWhile p = c :: t) : p c = false := by
  induction l with
  | nil => simp at h
  | cons a l ih =>
    by_cases pa : p a = true
    · exact ih (by simpa [List.dropWhile, pa] using h)
    · have : a :: l = c :: t := by simpa [List.dropWhile, Bool.eq_false_iff.2 pa] using h
      cases this
      simpa using pa

theorem headD_append_ne {α : Type} (l m : List α) (d : α) (h : l ≠ []) :
    (l ++ m).headD d = l.headD d := by
  cases l with
  | nil => exact absurd rfl h
  | cons a l => simp

theorem getLastD_eq_headD_reverse {α : Type} (l : List α) (d : α) :
    l.getLastD d = l.reverse.headD d := by
  induction l generalizing d with
  | nil => rfl
  | cons a l ih =>
    rw [List.getLastD_cons, ih a, List.reverse_cons]
    cases hl : l.reverse with
    | nil =>
      have : l = [] := by simpa using congrArg List.reverse hl
      simp [this]
    | cons b t => simp [hl]

theorem rstripSet_append_strip {α : Type} [DecidableEq α] (S m t : List α)
    (ht : t.all (inSetB S) = true) :
    rstripSet S (m ++ t) = rstripSet S m := by
  unfold rstripSet
  rw [List.reverse_append, dropWhile_append_all _ _ _ (by simpa using ht)]

theorem rstripSet_last {α : Type} [DecidableEq α] (S l : List α) (d : α) :
    rstripSet S l = [] ∨ inSetB S ((rstripSet S l).getLastD d) = false := by
  unfold rstripSet
  cases hdw : l.reverse.dropWhile (inSetB S) with
  | nil => exact Or.inl (by simp)
  | cons c t =>
    right
    have hc := dropWhile_head_false _ _ _ _ hdw
    rw [getLastD_eq_headD_reverse, List.reverse_reverse]
    simpa using hc

theorem takeWhile_append_dropWhile_eq {α : Type} (p : α → Bool) (l : List α) :
    l.takeWhile p ++ l.dropWhile p = l := by
  induction l with
  | nil => rfl
  | cons a l ih =>
    by_cases pa : p a = true
    · simp [List.takeWhile, List.dropWhile, pa, ih]
    · simp [List.takeWhile, List.dropWhile, pa]

theorem rstripSet_decomp {α : Type} [DecidableEq α] (S l : List α) :
    ∃ t, l = rstripSet S l ++ t ∧ t.all (inSetB S) = true := by
  refine ⟨(l.reverse.takeWhile (inSetB S)).reverse, ?_, ?_⟩
  · have h1 := takeWhile_append_dropWhile_eq (inSetB S) l.reverse
    have h2 := congrArg List.reverse h1
    rw [List.reverse_append, List.reverse_reverse] at h2
    exact h2.symm
  · rw [List.all_eq_true]
    intro a ha
    rw [List.mem_reverse] at ha
    exact List.mem_takeWhile_imp ha

theorem rstripSet_eq_of_last {α : Type} [DecidableEq α] (S m : List α) (d : α)
    (h : m = [] ∨ inSetB S (m.getLastD d) = false) : rstripSet S m = m := by
  rcases h with h | h
  · simp [h, rstripSet]
  · unfold rstripSet
    cases hm : m.reverse with
    | nil =>
      have : m = [] := by simpa using congrArg List.reverse hm
      simp [this]
    | cons c t =>
      have hb := getLastD_eq_headD_reverse m d
      rw [hm] at hb
      have hc : inSetB S c = false := by
        rw [hb] at h
        simpa using h
      rw [List.dropWhile_cons, hc]
      simp only [Bool.false_eq_true, if_false]
      rw [← hm, List.reverse_reverse]

theorem lookupA_upsert [DecidableEq κ] (k : κ) (v : ν) (m : List (κ × ν)) (k2 : κ) :
    lookupA (upsert k v m) k2 = if k2 = k then some v else lookupA m k2 := by
  induction m with
  | nil => simp [upsert, lookupA]
  | cons kv m ih =>
    obtain ⟨k0, v0⟩ := kv
    by_cases hkk : k = k0
    · subst hkk
      by_cases h2 : k2 = k
      · simp [upsert, lookupA, h2]
      · simp [upsert, lookupA, h2]
    · simp only [upsert, if_neg hkk, lookupA]
      by_cases h0 : k2 = k0
      · subst h0
        have hne : ¬ k2 = k := fun h => hkk (h.symm)
        simp [lookupA, hne]
      · simp [lookupA, h0, ih]

theorem upsert_len_new [DecidableEq κ] (k : κ) (v : ν) (m : List (κ × ν))
    (h : lookupA m k = none) : (upsert k v m).length = m.length + 1 := by
  induction m with
  | nil => simp [upsert]
  | cons kv m ih =>
    obtain ⟨k0, v0⟩ := kv
    by_cases hkk : k = k0
    · subst hkk
      simp [lookupA] at h
    · simp only [lookupA, if_neg hkk] at h
      simp [upsert, if_neg hkk, ih h]

/-! ## Lemmas: ASCII encoding and decoding -/

theorem charOfNat_toNat (c : Char) : Char.ofNat c.toNat = c := by
  have h : c.toNat.isValidChar := c.valid
  unfold Char.ofNat
  rw [dif_pos h]
  unfold Char.ofNatAux
  apply Char.ext
  apply UInt32.ext
  rfl

theorem strBytes_append (x y : LC) : strBytes (x ++ y) = strBytes x ++ strBytes y := by
  induction x with
  | nil => simp [strBytes]
  | cons c x ih => simp [strBytes, ih]

theorem utf8EncodeCh_ascii (c : Char) (h : c.toNat < 128) : utf8EncodeCh c = [c.toNat] := by
  simp [utf8EncodeCh, h]

theorem strBytes_ascii (s : LC) (h : s.all (fun c => decide (c.toNat < 128)) = true) :
    strBytes s = s.map Char.toNat := by
  induction s with
  | nil => rfl
  | cons c s ih =>
    simp only [List.all_cons, Bool.and_eq_true, decide_eq_true_eq] at h
    simp [strBytes, utf8EncodeCh_ascii c h.1, ih h.2]

theorem decode_ascii (bs : List Nat) (h : bs.all (fun b => decide (b < 128)) = true) :
    utf8DecodeIgnore bs = bs.map Char.ofNat := by
  induction bs with
  | nil => rfl
  | cons b r ih =>
    simp only [List.all_cons, Bool.and_eq_true, decide_eq_true_eq] at h
    cases r with
    | nil => simp [utf8DecodeIgnore, h.1]
    | cons b2 r2 =>
      have hrec := ih (by simpa using h.2)
      show utf8DecodeIgnore (b :: b2 :: r2) = Char.ofNat b :: List.map Char.ofNat (b2 :: r2)
      conv_lhs => rw [utf8DecodeIgnore.eq_def]
      simp only []
      rw [if_pos h.1, hrec]

theorem decode_strBytes_ascii (s : LC) (h : s.all (fun c => decide (c.toNat < 128)) = true) :
    utf8DecodeIgnore (strBytes s) = s := by
  rw [strBytes_ascii s h, decode_ascii]
  · rw [List.map_map]
    have : ∀ c ∈ s, (Char.ofNat ∘ Char.toNat) c = id c := by
      intro c _
      simp [charOfNat_toNat c]
    rw [List.map_congr_left this, List.map_id]
  · rw [List.all_eq_true]
    intro b hb
    rw [List.mem_map] at hb
    obtain ⟨c, hc, rfl⟩ := hb
    have := (List.all_eq_true.mp h) c hc
    simpa using this

/-! ## Lemmas: character classes and transfers -/

theorem all_imp {α : Type} (p q : α → Bool) (l : List α)
    (h : ∀ a, p a = true → q a = true) (hl : l.all p = true) : l.all q = true := by
  rw [List.all_eq_true] at hl ⊢
  exact fun a ha => h a (hl a ha)

theorem all_map_of_all {α β : Type} (f : α → β) (p : β → Bool) (l : List α)
    (h : l.all (fun a => p (f a)) = true) : (l.map f).all p = true := by
  induction l with
  | nil => rfl
  | cons a l ih =>
    simp only [List.all_cons, Bool.and_eq_true] at h
    simp [h.1, ih h.2]

theorem charOkName_ascii (c : Char) (h : charOkName c = true) :
    decide (c.toNat < 128) = true := by
  simp only [charOkName, Bool.and_eq_true] at h
  simp [h.1.1.1]

theorem charOkName_ne13 (c : Char) (h : charOkName c = true) :
    (!(c.toNat == 13)) = true := by
  simp only [charOkName, Bool.and_eq_true] at h
  simpa using h.1.2

theorem charOkName_ne_qc (c : Char) (h : charOkName c = true) :
    (!(c == qc)) = true := by
  simp only [charOkName, Bool.and_eq_true] at h
  have h34 : ¬(c.toNat = 34) := by simpa using h.1.1.2
  have : ¬(c = qc) := by
    intro he
    exact h34 (by rw [he]; decide)
  simpa using this

/-! ## Lemmas: no double-CRLF straddles a built header block -/

theorem isPre_dcrlf_cons_ne (c : Nat) (z : List Nat) (hc : (c == 13) = false) :
    isPre dcrlfB (c :: z) = false := by
  have h13 : ¬((13 : Nat) = c) := by
    intro h
    rw [← h] at hc
    simp at hc
  simp [dcrlfB, isPre, h13]

theorem ns_all13 (h : List Nat) (hall : h.all (fun b => !(b == 13)) = true) :
    noStraddleB dcrlfB h = true := by
  induction h with
  | nil => simp [noStraddleB]
  | cons c t ih =>
    simp only [List.all_cons, Bool.and_eq_true] at hall
    have hc : (c == 13) = false := by simpa using hall.1
    simp [noStraddleB, ih hall.2, isPre_dcrlf_cons_ne c _ hc]

theorem ns_over13 (h1 y : List Nat) (hall : h1.all (fun b => !(b == 13)) = true)
    (hy : noStraddleB dcrlfB y = true) : noStraddleB dcrlfB (h1 ++ y) = true := by
  induction h1 with
  | nil => simpa using hy
  | cons c t ih =>
    simp only [List.all_cons, Bool.and_eq_true] at hall
    have hc : (c == 13) = false := by simpa using hall.1
    show noStraddleB dcrlfB (c :: (t ++ y)) = true
    simp [noStraddleB, ih hall.2, isPre_dcrlf_cons_ne c _ hc]

theorem ns_crlf_cons (c : Nat) (z : List Nat) (hc : (c == 13) = false)
    (h : noStraddleB dcrlfB (c :: z) = true) :
    noStraddleB dcrlfB (13 :: 10 :: c :: z) = true := by
  have h1 : isPre dcrlfB ((13 : Nat) :: 10 :: c :: z ++ dcrlfB) = false := by
    have h13 : ¬((13 : Nat) = c) := by
      intro he
      rw [← he] at hc
      simp at hc
    simp [dcrlfB, isPre, h13]
  have h2 : isPre dcrlfB ((10 : Nat) :: c :: z ++ dcrlfB) = false := by
    simp [dcrlfB, isPre]
  simp only [noStraddleB, Bool.and_eq_true, Bool.not_eq_true'] at h ⊢
  exact ⟨by simpa using h1, by simpa using h2, h.1, h.2⟩

theorem ns_crlf_append (H : List Nat) (hne : H ≠ []) (hh : (H.headD 0 == 13) = false)
    (h : noStraddleB dcrlfB H = true) : noStraddleB dcrlfB (crlfB ++ H) = true := by
  cases H with
  | nil => exact absurd rfl hne
  | cons c z =>
    have : crlfB ++ (c :: z) = 13 :: 10 :: c :: z := by simp [crlfB]
    rw [this]
    exact ns_crlf_cons c z (by simpa using hh) h

/-! ## Lemmas: the hand-rolled name regex on built headers -/

theorem nameEqC_cons : nameEqC = 'n' :: 'a' :: 'm' :: 'e' :: '=' :: [qc] := by decide

theorem tryNameAt_none_of_head_ne (c : Char) (s : LC) (hc : (c == 'n') = false) :
    tryNameAt (c :: s) = none := by
  have hn : ¬('n' = c) := by
    intro he
    rw [← he] at hc
    simp at hc
  have : isPre nameEqC (c :: s) = false := by
    rw [nameEqC_cons]
    simp [isPre, hn]
  simp [tryNameAt, this]

theorem tryNameAt_none_of_long (c : Char) (s z : LC) (h6 : 6 ≤ (c :: s).length)
    (h : isPre nameEqC (c :: s) = false) : tryNameAt ((c :: s) ++ z) = none := by
  have hlen : nameEqC.length = 6 := by decide
  have hp : isPre nameEqC ((c :: s) ++ z) = false := by
    rw [isPre_append_of_le nameEqC (c :: s) z (by rw [hlen]; exact h6)]
    exact h
  have : tryNameAt ((c :: s) ++ z) = tryNameAt (c :: (s ++ z)) := by simp
  rw [this]
  simp only [tryNameAt]
  rw [if_neg (by simpa using hp)]

theorem tryNameAt_match (n y : LC) (hne : n ≠ []) (hq : n.all (fun c => !(c == qc)) = true) :
    tryNameAt (nameEqC ++ (n ++ qc :: y)) = some n := by
  have h1 : isPre nameEqC (nameEqC ++ (n ++ qc :: y)) = true := isPre_append_self _ _
  have h2 : List.drop nameEqC.length (nameEqC ++ (n ++ qc :: y)) = n ++ qc :: y := by
    simp
  have h3 : List.takeWhile (fun c => !(c == qc)) (n ++ qc :: y) = n := by
    rw [takeWhile_append_all _ _ _ hq]
    simp [List.takeWhile_cons]
  have h4 : List.drop n.length (n ++ qc :: y) = qc :: y := by simp
  simp only [tryNameAt, h1, if_true, h2, h3, h4]
  rw [if_neg hne, if_pos (by simp [isPre])]

theorem rsn_found (l : LC) (v : LC) (h : tryNameAt l = some v) : reSearchName l = some v := by
  cases l with
  | nil => simp [tryNameAt] at h
  | cons c s => simp [reSearchName, h]

theorem rsn_generic (n y : LC) (hne : n ≠ []) (hq : n.all (fun c => !(c == qc)) = true) :
    ∀ x : LC, skipOk x = true →
      reSearchName (x ++ (nameEqC ++ (n ++ qc :: y))) = some n := by
  intro x
  induction x with
  | nil =>
    intro _
    rw [List.nil_append]
    exact rsn_found _ n (tryNameAt_match n y hne hq)
  | cons c x ih =>
    intro hsk
    simp only [skipOk, Bool.and_eq_true] at hsk
    have hskip : tryNameAt ((c :: x) ++ (nameEqC ++ (n ++ qc :: y))) = none := by
      by_cases h6 : 6 ≤ (c :: x).length
      · rw [if_pos h6] at hsk
        exact tryNameAt_none_of_long c x _ h6 (by simpa using hsk.1)
      · rw [if_neg h6] at hsk
        have := tryNameAt_none_of_head_ne c (x ++ (nameEqC ++ (n ++ qc :: y)))
          (by simpa using hsk.1)
        simpa using this
    have hskip2 : tryNameAt (c :: (x ++ (nameEqC ++ (n ++ qc :: y)))) = none := by
      simpa using hskip
    show reSearchName (c :: (x ++ (nameEqC ++ (n ++ qc :: y)))) = some n
    simp only [reSearchName, hskip2]
    exact ih hsk.2

/-! ## Lemmas: processing of one built segment -/

theorem hdrC_all (p : Char → Bool) (n : LC)
    (hcd : cdC.all p = true) (hcf : colonFormC.all p = true) (hnq : nameEqC.all p = true)
    (hn : n.all p = true) (hqc : p qc = true) : (hdrC n).all p = true := by
  simp [hdrC, List.all_append, hcd, hcf, hnq, hn, hqc]

theorem hdrFileC_all (p : Char → Bool) (n fn : LC)
    (hcd : cdC.all p = true) (hcf : colonFormC.all p = true) (hnq : nameEqC.all p = true)
    (hn : n.all p = true) (hqc : p qc = true) (hsemi : p semiCh = true)
    (hsp : p spCh = true) (hfeq : fnEqC.all p = true) (hfn : fn.all p = true) :
    (hdrFileC n fn).all p = true := by
  simp [hdrFileC, List.all_append, hcd, hcf, hnq, hn, hqc, hsemi, hsp, hfeq, hfn]

theorem fileHdrBlockC_all (p : Char → Bool) (n fn : LC)
    (hcrlf : crlfC.all p = true) (hhd : (hdrFileC n fn).all p = true)
    (hct : ctLineC.all p = true) : (fileHdrBlockC n fn).all p = true := by
  simp [fileHdrBlockC, List.all_append, hcrlf, hhd, hct]

theorem fieldSeg_shape (n : LC) (v : List Nat) :
    fieldSeg n v = (crlfB ++ strBytes (hdrC n)) ++ (dcrlfB ++ (v ++ crlfB)) := by
  simp [fieldSeg, List.append_assoc]

theorem cd_in_fieldSeg (n : LC) (v : List Nat) : containsS cdB (fieldSeg n v) = true := by
  have hshape : fieldSeg n v =
      crlfB ++ (cdB ++ (strBytes (colonFormC ++ nameEqC ++ n ++ [qc]) ++
        (dcrlfB ++ (v ++ crlfB)))) := by
    simp [fieldSeg, hdrC, cdB, strBytes_append, List.append_assoc]
  rw [hshape]
  exact containsS_append_pre _ _ _ (isPre_append_self cdB _)

theorem cd_in_fileSeg (n fn : LC) (payload : List Nat) :
    containsS cdB (fileSeg n fn payload) = true := by
  have hshape : fileSeg n fn payload =
      strBytes crlfC ++ (cdB ++ (strBytes (colonFormC ++ nameEqC ++ n ++ [qc] ++
        [semiCh, spCh] ++ fnEqC ++ [qc] ++ fn ++ [qc]) ++ (strBytes crlfC ++
        (strBytes ctLineC ++ (dcrlfB ++ (payload ++ crlfB)))))) := by
    simp [fileSeg, fileHdrBlockC, hdrFileC, cdB, strBytes_append, strBytes,
      List.append_assoc]
  rw [hshape]
  exact containsS_append_pre _ _ _ (isPre_append_self cdB _)

theorem hdr_bytes_ne13 (n : LC) (hn : n.all charOkName = true) :
    (strBytes (hdrC n)).all (fun b => !(b == 13)) = true := by
  have hascii : (hdrC n).all (fun c => decide (c.toNat < 128)) = true :=
    hdrC_all _ n (by decide) (by decide) (by decide)
      (all_imp _ _ n charOkName_ascii hn) (by decide)
  rw [strBytes_ascii _ hascii]
  apply all_map_of_all
  exact hdrC_all _ n (by decide) (by decide) (by decide)
    (all_imp _ _ n charOkName_ne13 hn) (by decide)

theorem hdr_bytes_ne_nil (n : LC) : strBytes (hdrC n) ≠ [] := by
  intro hcon
  have hlen := congrArg List.length hcon
  rw [show hdrC n = cdC ++ (colonFormC ++ (nameEqC ++ (n ++ [qc]))) from by
    simp [hdrC, List.append_assoc], strBytes_append] at hlen
  simp only [List.length_append, List.length_nil] at hlen
  have h19 : (strBytes cdC).length = 19 := by decide
  omega

theorem hdr_head (n : LC) : (strBytes (hdrC n)).headD 0 = 67 := by
  rw [show hdrC n = cdC ++ (colonFormC ++ (nameEqC ++ (n ++ [qc]))) from by
    simp [hdrC, List.append_assoc], strBytes_append]
  rw [headD_append_ne _ _ _ (by decide)]
  decide

theorem splitFirst_fieldSeg (n : LC) (v : List Nat) (hn : n.all charOkName = true) :
    splitFirst dcrlfB (fieldSeg n v) = some (crlfB ++ strBytes (hdrC n), v ++ crlfB) := by
  rw [fieldSeg_shape]
  apply splitFirst_exact dcrlfB (by decide)
  exact ns_crlf_append _ (hdr_bytes_ne_nil n) (by rw [hdr_head n]; decide)
    (ns_all13 _ (hdr_bytes_ne13 n hn))

theorem hdrFile_bytes_ne13 (n fn : LC) (hn : n.all charOkName = true)
    (hfn : fn.all charOkName = true) :
    (strBytes (hdrFileC n fn)).all (fun b => !(b == 13)) = true := by
  have hascii : (hdrFileC n fn).all (fun c => decide (c.toNat < 128)) = true :=
    hdrFileC_all _ n fn (by decide) (by decide) (by decide)
      (all_imp _ _ n charOkName_ascii hn) (by decide) (by decide) (by decide) (by decide)
      (all_imp _ _ fn charOkName_ascii hfn)
  rw [strBytes_ascii _ hascii]
  apply all_map_of_all
  exact hdrFileC_all _ n fn (by decide) (by decide) (by decide)
    (all_imp _ _ n charOkName_ne13 hn) (by decide) (by decide) (by decide) (by decide)
    (all_imp _ _ fn charOkName_ne13 hfn)

theorem hdrFile_bytes_ne_nil (n fn : LC) : strBytes (hdrFileC n fn) ≠ [] := by
  intro hcon
  have hlen := congrArg List.length hcon
  rw [show hdrFileC n fn = cdC ++ (colonFormC ++ (nameEqC ++ (n ++ ([qc] ++
    ([semiCh, spCh] ++ (fnEqC ++ ([qc] ++ (fn ++ [qc])))))))) from by
    simp [hdrFileC, List.append_assoc], strBytes_append] at hlen
  simp only [List.length_append, List.length_nil] at hlen
  have h19 : (strBytes cdC).length = 19 := by decide
  omega

theorem hdrFile_head (n fn : LC) : (strBytes (hdrFileC n fn)).headD 0 = 67 := by
  rw [show hdrFileC n fn = cdC ++ (colonFormC ++ (nameEqC ++ (n ++ ([qc] ++
    ([semiCh, spCh] ++ (fnEqC ++ ([qc] ++ (fn ++ [qc])))))))) from by
    simp [hdrFileC, List.append_assoc], strBytes_append]
  rw [headD_append_ne _ _ _ (by decide)]
  decide

theorem fileHdrBlock_bytes (n fn : LC) :
    strBytes (fileHdrBlockC n fn) =
      crlfB ++ (strBytes (hdrFileC n fn) ++ (crlfB ++ strBytes ctLineC)) := by
  have hc : strBytes crlfC = crlfB := by decide
  simp [fileHdrBlockC, strBytes_append, hc, List.append_assoc]

theorem ns_fileHdrBlock (n fn : LC) (hn : n.all charOkName = true)
    (hfn : fn.all charOkName = true) :
    noStraddleB dcrlfB (strBytes (fileHdrBlockC n fn)) = true := by
  rw [fileHdrBlock_bytes]
  apply ns_crlf_append
  · intro hcon
    have hlen := congrArg List.length hcon
    simp only [List.length_append, List.length_nil] at hlen
    have h2 : (strBytes ctLineC).length = 38 := by decide
    have h3 : crlfB.length = 2 := by decide
    omega
  · rw [headD_append_ne _ _ _ (hdrFile_bytes_ne_nil n fn), hdrFile_head n fn]
    decide
  · apply ns_over13 _ _ (hdrFile_bytes_ne13 n fn hn hfn)
    decide

theorem splitFirst_fileSeg (n fn : LC) (payload : List Nat) (hn : n.all charOkName = true)
    (hfn : fn.all charOkName = true) :
    splitFirst dcrlfB (fileSeg n fn payload) =
      some (strBytes (fileHdrBlockC n fn), payload ++ crlfB) := by
  exact splitFirst_exact dcrlfB (by decide) _ _ (ns_fileHdrBlock n fn hn hfn)

theorem decode_fieldHdr (n : LC) (hn : n.all charOkName = true) :
    utf8DecodeIgnore (crlfB ++ strBytes (hdrC n)) = crlfC ++ hdrC n := by
  have h1 : crlfB ++ strBytes (hdrC n) = strBytes (crlfC ++ hdrC n) := by
    rw [strBytes_append, show strBytes crlfC = crlfB from by decide]
  rw [h1]
  apply decode_strBytes_ascii
  simp only [List.all_append, Bool.and_eq_true]
  exact ⟨by decide, hdrC_all _ n (by decide) (by decide) (by decide)
    (all_imp _ _ n charOkName_ascii hn) (by decide)⟩

theorem decode_fileHdr (n fn : LC) (hn : n.all charOkName = true)
    (hfn : fn.all charOkName = true) :
    utf8DecodeIgnore (strBytes (fileHdrBlockC n fn)) = fileHdrBlockC n fn := by
  apply decode_strBytes_ascii
  exact fileHdrBlockC_all _ n fn (by decide)
    (hdrFileC_all _ n fn (by decide) (by decide) (by decide)
      (all_imp _ _ n charOkName_ascii hn) (by decide) (by decide) (by decide) (by decide)
      (all_imp _ _ fn charOkName_ascii hfn)) (by decide)

theorem rsn_field (n : LC) (hne : n ≠ []) (hq : n.all (fun c => !(c == qc)) = true) :
    reSearchName (crlfC ++ hdrC n) = some n := by
  have hshape : crlfC ++ hdrC n =
      (crlfC ++ cdC ++ colonFormC) ++ (nameEqC ++ (n ++ qc :: [])) := by
    simp [hdrC, List.append_assoc]
  rw [hshape]
  exact rsn_generic n [] hne hq _ (by decide)

theorem rsn_file (n fn : LC) (hne : n ≠ []) (hq : n.all (fun c => !(c == qc)) = true) :
    reSearchName (fileHdrBlockC n fn) = some n := by
  have hshape : fileHdrBlockC n fn =
      (crlfC ++ cdC ++ colonFormC) ++ (nameEqC ++ (n ++ qc ::
        ([semiCh, spCh] ++ fnEqC ++ [qc] ++ fn ++ [qc] ++ crlfC ++ ctLineC))) := by
    simp [fileHdrBlockC, hdrFileC, List.append_assoc]
  rw [hshape]
  exact rsn_generic n _ hne hq _ (by decide)

theorem fnEq_not_in_hdr (n : LC)
    (hfn : containsS fnEqC n = false) : containsS fnEqC (crlfC ++ hdrC n) = false := by
  cases hB : containsS fnEqC (crlfC ++ hdrC n) with
  | false => rfl
  | true =>
    exfalso
    have hshape : crlfC ++ hdrC n =
        (crlfC ++ cdC ++ colonFormC ++ String.toList "name=") ++ qc :: (n ++ qc :: []) := by
      simp [hdrC, nameEqC, List.append_assoc]
    rw [hshape] at hB
    have hq1 : qc ∉ fnEqC := by decide
    rcases containsS_cross fnEqC _ _ qc hq1 hB with h1 | h1
    · revert h1
      decide
    · rcases containsS_cross fnEqC n [] qc hq1 h1 with h2 | h2
      · rw [hfn] at h2
        exact Bool.false_ne_true h2
      · revert h2
        decide

theorem fnEq_in_fileHdr (n fn : LC) : containsS fnEqC (fileHdrBlockC n fn) = true := by
  have hshape : fileHdrBlockC n fn =
      (crlfC ++ cdC ++ colonFormC ++ String.toList "name=" ++ [qc] ++ n ++ [qc] ++
        [semiCh, spCh]) ++ (fnEqC ++ ([qc] ++ fn ++ [qc] ++ crlfC ++ ctLineC)) := by
    simp [fileHdrBlockC, hdrFileC, nameEqC, List.append_assoc]
  rw [hshape]
  exact containsS_append_pre _ _ _ (isPre_append_self fnEqC _)

theorem nameOk_parts (n : LC) (hn : nameOk n = true) :
    n ≠ [] ∧ n.all charOkName = true ∧ containsS fnEqC n = false := by
  simp only [nameOk, Bool.and_eq_true] at hn
  refine ⟨?_, hn.1.2, ?_⟩
  · intro he
    rw [he] at hn
    simpa using hn.1.1
  · simpa using hn.2

theorem parsePart_nil (fd : List (LC × LC)) (fs : List (LC × FileAtt)) :
    parsePart fd fs [] = (fd, fs) := by
  have h : containsS cdB ([] : List Nat) = false := by decide
  simp [parsePart, h]

theorem parsePart_tailSeg (fd : List (LC × LC)) (fs : List (LC × FileAtt)) :
    parsePart fd fs tailSegB = (fd, fs) := by
  have h : containsS cdB tailSegB = false := by decide
  simp [parsePart, h]

theorem parsePart_field (fd : List (LC × LC)) (fs : List (LC × FileAtt)) (n : LC)
    (v : List Nat) (hn : nameOk n = true) :
    parsePart fd fs (fieldSeg n v) =
      (upsert n (utf8DecodeIgnore (rstripSet stripSetB (v ++ crlfB))) fd, fs) := by
  obtain ⟨hne, hall, hnf⟩ := nameOk_parts n hn
  have hq : n.all (fun c => !(c == qc)) = true := all_imp _ _ n charOkName_ne_qc hall
  simp only [parsePart, cd_in_fieldSeg n v, if_true, splitFirst_fieldSeg n v hall,
    decode_fieldHdr n hall, rsn_field n hne hq, fnEq_not_in_hdr n hnf,
    Bool.false_eq_true, if_false]

theorem parsePart_file (fd : List (LC × LC)) (fs : List (LC × FileAtt)) (n fn : LC)
    (payload : List Nat) (hn : nameOk n = true) (hfn : fnOk fn = true) :
    parsePart fd fs (fileSeg n fn payload) =
      (fd, upsert n ⟨rstripSet stripSetB (payload ++ crlfB), fileHdrBlockC n fn⟩ fs) := by
  obtain ⟨hne, hall, _⟩ := nameOk_parts n hn
  have hq : n.all (fun c => !(c == qc)) = true := all_imp _ _ n charOkName_ne_qc hall
  have hfnall : fn.all charOkName = true := hfn
  simp only [parsePart, cd_in_fileSeg n fn payload, if_true,
    splitFirst_fileSeg n fn payload hall hfnall, decode_fileHdr n fn hall hfnall,
    rsn_file n fn hne hq, fnEq_in_fileHdr n fn]

/-! ## Lemmas: folding the parser over all segments of a built body -/

theorem goParts_cons (p : List Nat) (ps : List (List Nat)) (fd : List (LC × LC))
    (fs : List (LC × FileAtt)) :
    goParts (p :: ps) fd fs = goParts ps (parsePart fd fs p).1 (parsePart fd fs p).2 := rfl

theorem goParts_fieldSegs (fields : List (LC × List Nat)) :
    ∀ (rest : List (List Nat)) (fd : List (LC × LC)) (fs : List (LC × FileAtt)),
      fields.all (fun f => nameOk f.1) = true →
      goParts (fields.map (fun f => fieldSeg f.1 f.2) ++ rest) fd fs =
        goParts rest (fieldsFold fd fields) fs := by
  induction fields with
  | nil =>
    intro rest fd fs _
    simp [fieldsFold]
  | cons f fields ih =>
    intro rest fd fs hall
    simp only [List.all_cons, Bool.and_eq_true] at hall
    obtain ⟨n, v⟩ := f
    show goParts (fieldSeg n v :: (fields.map (fun f => fieldSeg f.1 f.2) ++ rest)) fd fs = _
    rw [goParts_cons, parsePart_field fd fs n v hall.1]
    rw [ih rest _ fs hall.2]
    simp [fieldsFold, fieldVal]

theorem fieldsFold_len (fields : List (LC × List Nat)) :
    ∀ m : List (LC × LC), (∀ f ∈ fields, lookupA m f.1 = none) →
      (fields.map Prod.fst).Nodup →
      (fieldsFold m fields).length = m.length + fields.length := by
  induction fields with
  | nil =>
    intro m _ _
    simp [fieldsFold]
  | cons f fields ih =>
    intro m hnone hnd
    obtain ⟨n, v⟩ := f
    have hstep : fieldsFold m ((n, v) :: fields) =
        fieldsFold (upsert n (fieldVal v) m) fields := by
      simp [fieldsFold]
    rw [hstep]
    have hlen : (upsert n (fieldVal v) m).length = m.length + 1 :=
      upsert_len_new n _ m (hnone (n, v) (by simp))
    simp only [List.map_cons, List.nodup_cons] at hnd
    have hnone2 : ∀ f ∈ fields, lookupA (upsert n (fieldVal v) m) f.1 = none := by
      intro f hf
      rw [lookupA_upsert]
      have hne : f.1 ≠ n := by
        intro he
        exact hnd.1 (by rw [← he]; exact List.mem_map_of_mem Prod.fst hf)
      rw [if_neg hne]
      exact hnone f (by simp [hf])
    rw [ih _ hnone2 hnd.2, hlen]
    simp only [List.length_cons]
    omega

theorem parsePart_files_shape (fd : List (LC × LC)) (fs : List (LC × FileAtt))
    (p : List Nat) :
    (parsePart fd fs p).2 = fs ∨
    ∃ k c h, (parsePart fd fs p).2 = upsert k ⟨rstripSet stripSetB c, h⟩ fs := by
  unfold parsePart
  by_cases h1 : containsS cdB p = true
  · rw [if_pos h1]
    cases h2 : splitFirst dcrlfB p with
    | none => simp
    | some pr =>
      obtain ⟨hdrs, content⟩ := pr
      simp only []
      cases h3 : reSearchName (utf8DecodeIgnore hdrs) with
      | none => simp
      | some fieldName =>
        simp only []
        by_cases h4 : containsS fnEqC (utf8DecodeIgnore hdrs) = true
        · rw [if_pos h4]
          exact Or.inr ⟨fieldName, content, utf8DecodeIgnore hdrs, rfl⟩
        · rw [if_neg h4]
          simp
  · rw [if_neg h1]
    simp

theorem goParts_files_inv (P : List Nat → Prop) (hP : ∀ c, P (rstripSet stripSetB c)) :
    ∀ (parts : List (List Nat)) (fd : List (LC × LC)) (fs : List (LC × FileAtt)),
      (∀ k a, lookupA fs k = some a → P a.content) →
      ∀ k a, lookupA (goParts parts fd fs).2 k = some a → P a.content := by
  intro parts
  induction parts with
  | nil =>
    intro fd fs hfs k a h
    exact hfs k a h
  | cons p ps ih =>
    intro fd fs hfs k a h
    rw [goParts_cons] at h
    refine ih _ _ ?_ k a h
    rcases parsePart_files_shape fd fs p with hsh | ⟨k0, c, hd, hsh⟩
    · rw [hsh]
      exact hfs
    · rw [hsh]
      intro k1 a1 hl
      rw [lookupA_upsert] at hl
      by_cases hk : k1 = k0
      · rw [if_pos hk] at hl
        cases hl
        exact hP c
      · rw [if_neg hk] at hl
        exact hfs k1 a1 hl

/-! ## Lemmas: strip, idempotence, and preserved character classes -/

theorem dropWhile_all_nil {α : Type} (p : α → Bool) (l : List α) (h : l.all p = true) :
    l.dropWhile p = [] := by
  induction l with
  | nil => rfl
  | cons a l ih =>
    simp only [List.all_cons, Bool.and_eq_true] at h
    simp [List.dropWhile_cons, h.1, ih h.2]

theorem pyStrip_all_white (s : LC) (h : s.all pyWhite = true) : pyStrip s = [] := by
  unfold pyStrip
  rw [dropWhile_all_nil pyWhite s h]
  rfl

theorem dropWhile_cons_of_head (p : α → Bool) (s : List α) (h : p (s.headD d) = false)
    (hne : s ≠ []) : s.dropWhile p = s := by
  cases s with
  | nil => exact absurd rfl hne
  | cons a l =>
    simp only [List.headD_cons] at h
    simp [List.dropWhile_cons, h]

theorem pyStrip_eq_self (s : LC) (d : Char) (hne : s ≠ [])
    (h1 : pyWhite (s.headD d) = false) (h2 : pyWhite (s.getLastD d) = false) :
    pyStrip s = s := by
  unfold pyStrip
  rw [dropWhile_cons_of_head pyWhite s h1 hne]
  have hrne : s.reverse ≠ [] := by
    intro hcon
    exact hne (by simpa using congrArg List.reverse hcon)
  rw [dropWhile_cons_of_head pyWhite s.reverse
    (by rw [← getLastD_eq_headD_reverse]; exact h2) hrne]
  exact List.reverse_reverse s

theorem getLastD_append_of_ne {α : Type} (l m : List α) (d : α) (h : m ≠ []) :
    (l ++ m).getLastD d = m.getLastD d := by
  rw [getLastD_eq_headD_reverse, getLastD_eq_headD_reverse, List.reverse_append]
  exact headD_append_ne _ _ _ (by simpa using h)

theorem getLastD_dropWhile {α : Type} (p : α → Bool) (l : List α) (d : α)
    (h : l.dropWhile p ≠ []) : (l.dropWhile p).getLastD d = l.getLastD d := by
  calc (l.dropWhile p).getLastD d
      = (l.takeWhile p ++ l.dropWhile p).getLastD d :=
        (getLastD_append_of_ne _ _ _ h).symm
    _ = l.getLastD d := by rw [takeWhile_append_dropWhile_eq p l]

theorem pyStrip_shape (s : LC) (d : Char) :
    pyStrip s = [] ∨
    (pyWhite ((pyStrip s).headD d) = false ∧ pyWhite ((pyStrip s).getLastD d) = false) := by
  have hdef : pyStrip s = ((s.dropWhile pyWhite).reverse.dropWhile pyWhite).reverse := rfl
  cases hv : (s.dropWhile pyWhite).reverse.dropWhile pyWhite with
  | nil => exact Or.inl (by rw [hdef, hv]; rfl)
  | cons c t =>
    right
    have hrw : pyStrip s = (c :: t).reverse := by rw [hdef, hv]
    constructor
    · rw [hrw]
      rw [show ((c :: t).reverse).headD d = (c :: t).getLastD d from
        (getLastD_eq_headD_reverse (c :: t) d).symm]
      rw [← hv]
      rw [getLastD_dropWhile pyWhite _ d (by rw [hv]; simp)]
      rw [show ((s.dropWhile pyWhite).reverse).getLastD d =
          (s.dropWhile pyWhite).headD d from by
        rw [getLastD_eq_headD_reverse, List.reverse_reverse]]
      have hu : s.dropWhile pyWhite ≠ [] := by
        intro hcon
        rw [hcon] at hv
        simp at hv
      cases hu2 : s.dropWhile pyWhite with
      | nil => exact absurd hu2 hu
      | cons c0 t0 =>
        have hc0 := dropWhile_head_false pyWhite s c0 t0 hu2
        simpa using hc0
    · rw [hrw]
      have hc := dropWhile_head_false pyWhite (s.dropWhile pyWhite).reverse c t hv
      rw [show ((c :: t).reverse).getLastD d = (c :: t).headD d from by
        rw [getLastD_eq_headD_reverse, List.reverse_reverse]]
      simpa using hc

theorem pyStrip_idem (s : LC) : pyStrip (pyStrip s) = pyStrip s := by
  rcases pyStrip_shape s 'x' with h | ⟨h1, h2⟩
  · rw [h]
    rfl
  · cases hps : pyStrip s with
    | nil => rfl
    | cons c t =>
      rw [← hps]
      exact pyStrip_eq_self (pyStrip s) 'x' (by simp [hps]) h1 h2

theorem mem_dropWhile_sub {α : Type} (p : α → Bool) (l : List α) (a : α)
    (h : a ∈ l.dropWhile p) : a ∈ l := by
  induction l with
  | nil => simp at h
  | cons b t ih =>
    by_cases pb : p b = true
    · rw [List.dropWhile_cons, if_pos pb] at h
      exact List.mem_cons_of_mem b (ih h)
    · rw [List.dropWhile_cons, if_neg pb] at h
      exact h

theorem mem_pyStrip_sub (s : LC) (a : Char) (h : a ∈ pyStrip s) : a ∈ s := by
  unfold pyStrip at h
  rw [List.mem_reverse] at h
  have h2 := mem_dropWhile_sub pyWhite _ a h
  rw [List.mem_reverse] at h2
  exact mem_dropWhile_sub pyWhite _ a h2

theorem pyStrip_all_sub (p : Char → Bool) (s : LC) (h : s.all p = true) :
    (pyStrip s).all p = true := by
  rw [List.all_eq_true] at h ⊢
  exact fun a ha => h a (mem_pyStrip_sub s a ha)

theorem all_filter_sub {α : Type} (p q : α → Bool) (l : List α) (h : l.all p = true) :
    (l.filter q).all p = true := by
  rw [List.all_eq_true] at h ⊢
  exact fun a ha => h a (List.mem_of_mem_filter ha)

theorem all_filter_self {α : Type} (q : α → Bool) (l : List α) :
    (l.filter q).all q = true := by
  rw [List.all_eq_true]
  exact fun a ha => List.of_mem_filter ha

theorem contains_false_of_all_ne (l : LC) (a : Char)
    (h : l.all (fun c => !(c == a)) = true) : l.contains a = false := by
  cases hc : l.contains a with
  | false => rfl
  | true =>
    exfalso
    have hm : a ∈ l := by simpa using hc
    have := (List.all_eq_true.mp h) a hm
    simp at this

theorem lookupA_map_val [DecidableEq κ] (f : ν → ν) (m : List (κ × ν)) (k : κ) :
    lookupA (m.map (fun kv => (kv.1, f kv.2))) k = (lookupA m k).map f := by
  induction m with
  | nil => rfl
  | cons kv m ih =>
    obtain ⟨k0, v0⟩ := kv
    by_cases h : k = k0
    · simp [lookupA, h]
    · simp [lookupA, h, ih]

theorem getD_map_strip (fd : List (LC × LC)) (k : LC) :
    pyStrip (getD (fd.map (fun kv => (kv.1, pyStrip kv.2))) k) = pyStrip (getD fd k) := by
  unfold getD
  rw [lookupA_map_val]
  cases lookupA fd k with
  | none => rfl
  | some v => exact pyStrip_idem v

/-! ## Lemmas: the generated base name -/

theorem digCh_range (p : Char → Bool) (hall : ∀ j, j ≤ 9 → p (digCh j) = true) (k : Nat) :
    p (digCh k) = true := by
  unfold digCh
  split_ifs with h0 h1 h2 h3 h4 h5 h6 h7 h8
  · exact (by simpa [digCh, h0] using hall 0 (by omega))
  · exact (by simpa [digCh, h1] using hall 1 (by omega))
  · exact (by simpa [digCh, h2] using hall 2 (by omega))
  · exact (by simpa [digCh, h3] using hall 3 (by omega))
  · exact (by simpa [digCh, h4] using hall 4 (by omega))
  · exact (by simpa [digCh, h5] using hall 5 (by omega))
  · exact (by simpa [digCh, h6] using hall 6 (by omega))
  · exact (by simpa [digCh, h7] using hall 7 (by omega))
  · exact (by simpa [digCh, h8] using hall 8 (by omega))
  · exact (by simpa [digCh] using hall 9 (by omega))

theorem digCh_not_reserved (k : Nat) : (!(reservedCh (digCh k))) = true :=
  digCh_range (fun c => !(reservedCh c)) (by decide) k

theorem decDigsF_all (p : Char → Bool) (hd : ∀ k, p (digCh k) = true) :
    ∀ (f n : Nat) (acc : LC), acc.all p = true → (decDigsF f n acc).all p = true := by
  intro f
  induction f with
  | zero =>
    intro n acc hacc
    simp [decDigsF, hd, hacc]
  | succ f ih =>
    intro n acc hacc
    unfold decDigsF
    by_cases h : n < 10
    · simp [h, hd, hacc]
    · rw [if_neg h]
      exact ih (n / 10) _ (by simp [hd, hacc])

theorem decDigs_all (p : Char → Bool) (hd : ∀ k, p (digCh k) = true) (n : Nat) :
    (decDigs n).all p = true :=
  decDigsF_all p hd n n [] rfl

theorem pad2_all (p : Char → Bool) (hd : ∀ k, p (digCh k) = true) (n : Nat) :
    (pad2 n).all p = true := by
  unfold pad2
  by_cases h : n < 10
  · simp [h, hd]
  · rw [if_neg h]
    exact decDigs_all p hd n

theorem pad4_all (p : Char → Bool) (hd : ∀ k, p (digCh k) = true) (n : Nat) :
    (pad4 n).all p = true := by
  unfold pad4
  split_ifs
  · simp [hd]
  · simp [List.all_append, hd, decDigs_all p hd n]
  · simp [List.all_cons, hd, decDigs_all p hd n]
  · exact decDigs_all p hd n

theorem formatTs_all (p : Char → Bool) (hd : ∀ k, p (digCh k) = true)
    (hh : p hyCh = true) (t : Ts) : (formatTs t).all p = true := by
  simp [formatTs, List.all_append, pad4_all p hd, pad2_all p hd, hh]

theorem filterReserved_all (s : LC) :
    (filterReserved s).all (fun c => !(reservedCh c)) = true :=
  all_filter_self _ s

theorem safeDialectOf_all (d : LC) :
    (safeDialectOf d).all (fun c => !(reservedCh c)) = true := by
  unfold safeDialectOf
  by_cases h : d = []
  · rw [if_pos h]
    decide
  · rw [if_neg h]
    exact filterReserved_all d

theorem rawPreviewOf_all (t : LC) :
    (rawPreviewOf t).all (fun c => !(reservedCh c)) = true := by
  unfold rawPreviewOf
  by_cases h : filterReserved t = []
  · rw [if_pos h]
    decide
  · rw [if_neg h]
    exact filterReserved_all t

theorem safePreviewOf_all (t : LC) :
    (safePreviewOf t).all (fun c => !(reservedCh c)) = true := by
  unfold safePreviewOf remSpaces
  exact pyStrip_all_sub _ _ (all_filter_sub _ _ _ (rawPreviewOf_all t))

theorem safeTranslitOf_all (tr : LC) :
    (safeTranslitOf tr).all (fun c => !(reservedCh c)) = true := by
  unfold safeTranslitOf
  by_cases h : tr = []
  · rw [if_pos h]
    rfl
  · rw [if_neg h]
    exact filterReserved_all tr

/-! ## Lemmas: decoder steps on ASCII-or-invalid byte mixes -/

theorem utf8_cc_255 (b2 : Nat) (r2 : List Nat) :
    utf8DecodeIgnore (255 :: b2 :: r2) = utf8DecodeIgnore (b2 :: r2) := by
  conv_lhs => rw [utf8DecodeIgnore.eq_def]
  norm_num

theorem utf8_cc_ascii (b b2 : Nat) (r2 : List Nat) (h : b < 128) :
    utf8DecodeIgnore (b :: b2 :: r2) = Char.ofNat b :: utf8DecodeIgnore (b2 :: r2) := by
  conv_lhs => rw [utf8DecodeIgnore.eq_def]
  simp only []
  rw [if_pos h]

/-! ## Claim theorems -/

/-- Claim C1 (code bug, evaluation at the failing inputs): the temporary
input file created by `convert_audio_to_wav` is NOT removed when the ffmpeg
executable is missing, when the subprocess times out, or when an unexpected
exception occurs — it is removed only on the paths where `subprocess.run`
returns normally (line 107 runs before the return-code check and is skipped
by the early return at line 84 and by both exception handlers). -/
theorem c1_temp_leak_eval :
    (convert_audio_to_wav false (RunOutcome.exited 0)).tempInputRemoved = false ∧
    (convert_audio_to_wav true RunOutcome.timedOut).tempInputRemoved = false ∧
    (convert_audio_to_wav true RunOutcome.raised).tempInputRemoved = false ∧
    (convert_audio_to_wav true (RunOutcome.exited 0)).tempInputRemoved = true ∧
    (convert_audio_to_wav true (RunOutcome.exited 1)).tempInputRemoved = true := by
  exact ⟨rfl, rfl, rfl, rfl, rfl⟩

set_option maxRecDepth 10000 in
/-- Claim C2, counterexample: a well-formed body whose file payload ends in
a `-` byte does NOT decode byte-for-byte: `parse_multipart` strips every
trailing byte drawn from the set of `b'\r\n--'`, so the stored content of
the four-byte payload `abc-` is the three bytes `abc`. -/
theorem c2_cex :
    (parse_multipart (buildBody (String.toList "Bnd")
        [(textK, strBytes (String.toList "hi"))] fileK (String.toList "a.bin")
        [97, 98, 99, 45]) (String.toList "Bnd")).2.map
      (fun kv => (kv.1, kv.2.content)) = [(fileK, [97, 98, 99])] ∧
    ([97, 98, 99] : List Nat) ≠ [97, 98, 99, 45] := by
  exact ⟨rfl, by decide⟩

/-- Claim C2 (amended): a well-formed multipart body with `N` text fields
(nonempty parser-safe distinct names, arbitrary value bytes) and exactly one
file part decodes to exactly `N` fields and exactly one file, and the stored
file content is byte-identical to the payload provided the payload is empty
or does not end in one of the bytes CR, LF, `-` (otherwise those trailing
bytes are stripped, as the counterexample shows).  Well-formedness includes
that the boundary delimiter does not occur in, nor straddle out of, any
segment. -/
theorem c2_decode (boundary : LC) (fields : List (LC × List Nat)) (ff fn : LC)
    (payload : List Nat)
    (hnames : fields.all (fun f => nameOk f.1) = true)
    (hnodup : (fields.map Prod.fst).Nodup)
    (hff : nameOk ff = true) (hfn : fnOk fn = true)
    (hsegs : ∀ s ∈ segsOfAll fields ff fn payload,
      noStraddleB (strBytes (hyCh :: hyCh :: boundary)) s = true)
    (htail : noOccurB (strBytes (hyCh :: hyCh :: boundary)) tailSegB = true)
    (hpay : payload = [] ∨ inSetB stripSetB (payload.getLastD 0) = false) :
    (parse_multipart (buildBody boundary fields ff fn payload) boundary).1.length =
        fields.length ∧
    (parse_multipart (buildBody boundary fields ff fn payload) boundary).2 =
        [(ff, ⟨payload, fileHdrBlockC ff fn⟩)] := by
  have hsep : strBytes (hyCh :: hyCh :: boundary) ≠ [] := by
    have h45 : utf8EncodeCh hyCh = [45] := by decide
    simp [strBytes, h45]
  have hsplit := pySplit_build (strBytes (hyCh :: hyCh :: boundary)) tailSegB
    (segsOfAll fields ff fn payload) hsep hsegs htail
  unfold parse_multipart buildBody
  rw [hsplit]
  rw [goParts_cons, parsePart_nil]
  rw [show segsOfAll fields ff fn payload ++ [tailSegB] =
      fields.map (fun f => fieldSeg f.1 f.2) ++ (fileSeg ff fn payload :: [tailSegB]) from by
    simp [segsOfAll]]
  rw [goParts_fieldSegs fields _ [] [] hnames]
  rw [goParts_cons, parsePart_file _ _ ff fn payload hff hfn]
  rw [goParts_cons, parsePart_tailSeg]
  have hcontent : rstripSet stripSetB (payload ++ crlfB) = payload := by
    rw [rstripSet_append_strip stripSetB payload crlfB (by decide)]
    exact rstripSet_eq_of_last stripSetB payload 0 hpay
  refine ⟨?_, ?_⟩
  · have h1 : (fieldsFold [] fields).length = fields.length := by
      rw [fieldsFold_len fields [] (fun f _ => rfl) hnodup]
      simp
    simpa [goParts] using h1
  · have h2 := congrArg
      (fun l => upsert ff ({ content := l, headers := fileHdrBlockC ff fn } : FileAtt) [])
      hcontent
    simpa [goParts, upsert] using h2

set_option maxRecDepth 10000 in
/-- Claim C2, witness: a concrete two-field request decodes to two fields
and one file whose content equals the payload. -/
theorem c2_decode_witness :
    (parse_multipart (buildBody (String.toList "Bnd")
        [(textK, strBytes (String.toList "hello")), (dialectK, strBytes (String.toList "Min"))]
        fileK (String.toList "a.bin") [1, 2, 3]) (String.toList "Bnd")).1.length =
      ([(textK, strBytes (String.toList "hello")),
        (dialectK, strBytes (String.toList "Min"))] : List (LC × List Nat)).length ∧
    (parse_multipart (buildBody (String.toList "Bnd")
        [(textK, strBytes (String.toList "hello")), (dialectK, strBytes (String.toList "Min"))]
        fileK (String.toList "a.bin") [1, 2, 3]) (String.toList "Bnd")).2 =
      [(fileK, ⟨[1, 2, 3], fileHdrBlockC fileK (String.toList "a.bin")⟩)] :=
  c2_decode (String.toList "Bnd")
    [(textK, strBytes (String.toList "hello")), (dialectK, strBytes (String.toList "Min"))]
    fileK (String.toList "a.bin") [1, 2, 3]
    (by decide) (by decide) (by decide) (by decide) (by decide) (by decide) (by decide)

/-- Claim C10: every stored file content in the parser output is either
empty or ends with a byte outside the strip set `{0x2D, 0x0D, 0x0A}`; the
`rstrip(b'\r\n--')` step establishes that invariant on every content it
produces; and the stripping removes ALL trailing bytes drawn from that set
(here five of them, in an order that is not a literal `\r\n--`), not only a
single trailing `\r\n--` occurrence. -/
theorem c10_trailing :
    (∀ (body : List Nat) (boundary : LC) (k : LC) (a : FileAtt),
        lookupA (parse_multipart body boundary).2 k = some a →
        a.content = [] ∨ inSetB stripSetB (a.content.getLastD 0) = false) ∧
    (∀ c : List Nat, rstripSet stripSetB c = [] ∨
        inSetB stripSetB ((rstripSet stripSetB c).getLastD 0) = false) ∧
    rstripSet stripSetB [97, 13, 10, 45, 45, 13, 13, 45] = [97] := by
  refine ⟨?_, fun c => rstripSet_last stripSetB c 0, by decide⟩
  intro body boundary k a h
  have hbase : ∀ (k : LC) (a : FileAtt),
      lookupA ([] : List (LC × FileAtt)) k = some a →
      a.content = [] ∨ inSetB stripSetB (a.content.getLastD 0) = false := by
    intro k a hk
    simp [lookupA] at hk
  refine goParts_files_inv
    (fun c => c = [] ∨ inSetB stripSetB (c.getLastD 0) = false)
    (fun c => rstripSet_last stripSetB c 0)
    (pySplit (strBytes (hyCh :: hyCh :: boundary)) body) [] [] hbase k a ?_
  simpa [parse_multipart] using h

set_option maxRecDepth 10000 in
/-- Claim C10, witness: parsing a concrete body whose file payload ends in
the bytes CR `-` yields a stored content (`ab`) satisfying the trailing
invariant. -/
theorem c10_trailing_witness :
    ([97, 98] : List Nat) = [] ∨
    inSetB stripSetB (([97, 98] : List Nat).getLastD 0) = false :=
  c10_trailing.1
    (buildBody (String.toList "Bnd") [] fileK (String.toList "a.bin") [97, 98, 13, 45])
    (String.toList "Bnd") fileK
    ⟨[97, 98], fileHdrBlockC fileK (String.toList "a.bin")⟩ (by rfl)

/-- Claim C3: whenever the converter reports failure (ffmpeg missing at
every probed path, nonzero exit, timeout, or exception — i.e. `success` is
`false`) or the output file is absent, the handler uploads exactly one
artifact whose body is the uploaded file's original bytes, whose key is
`audio/fallback/` ++ baseName ++ `.original`, and whose content type is
`audio/mp4`. -/
theorem c3_fallback (fd : List (LC × LC)) (fs : List (LC × FileAtt)) (env : ConvEnv)
    (att : FileAtt)
    (htext : pyStrip (getD fd textK) ≠ [])
    (hdia : pyStrip (getD fd dialectK) ≠ [])
    (husr : pyStrip (getD fd userK) ≠ [])
    (hfile : lookupA fs fileK = some att)
    (hfail : (convert_audio_to_wav env.ffmpegFound env.run).success = false ∨
             env.wavExists = false) :
    afterParse fd fs env =
      { statusCode := 200,
        message := String.toList
          "File processed and saved successfully - conversion failed, saved original",
        puts := [{ key := String.toList "audio/fallback/" ++
                     mkBaseName (pyStrip (getD fd textK)) (pyStrip (getD fd dialectK))
                       (pyStrip (getD fd translitK)) env.now ++ String.toList ".original",
                   body := att.content,
                   contentType := String.toList "audio/mp4" }] } := by
  have hcond : ((convert_audio_to_wav env.ffmpegFound env.run).success &&
      env.wavExists) = false := by
    rcases hfail with h | h <;> simp [h]
  have hval : ¬(pyStrip (getD fd textK) = [] ∨ pyStrip (getD fd dialectK) = [] ∨
      pyStrip (getD fd userK) = []) := by
    rintro (h | h | h)
    · exact htext h
    · exact hdia h
    · exact husr h
  simp only [afterParse, hfile, hcond, Bool.false_eq_true, if_false]
  rw [if_neg hval]

/-- Claim C3, witness: a concrete valid request with ffmpeg absent is
stored under the fallback key with the original bytes and `audio/mp4`. -/
theorem c3_fallback_witness :
    afterParse
      [(textK, String.toList "hi"), (dialectK, String.toList "Min"),
       (userK, String.toList "u1")]
      [(fileK, ⟨[9, 8, 7], []⟩)]
      ⟨false, RunOutcome.exited 0, true, [], ⟨2025, 1, 1, 0, 0, 0⟩⟩ =
      { statusCode := 200,
        message := String.toList
          "File processed and saved successfully - conversion failed, saved original",
        puts := [{ key := String.toList "audio/fallback/" ++
                     mkBaseName
                       (pyStrip (getD [(textK, String.toList "hi"),
                         (dialectK, String.toList "Min"),
                         (userK, String.toList "u1")] textK))
                       (pyStrip (getD [(textK, String.toList "hi"),
                         (dialectK, String.toList "Min"),
                         (userK, String.toList "u1")] dialectK))
                       (pyStrip (getD [(textK, String.toList "hi"),
                         (dialectK, String.toList "Min"),
                         (userK, String.toList "u1")] translitK))
                       ⟨2025, 1, 1, 0, 0, 0⟩ ++ String.toList ".original",
                   body := [9, 8, 7],
                   contentType := String.toList "audio/mp4" }] } :=
  c3_fallback
    [(textK, String.toList "hi"), (dialectK, String.toList "Min"),
     (userK, String.toList "u1")]
    [(fileK, ⟨[9, 8, 7], []⟩)]
    ⟨false, RunOutcome.exited 0, true, [], ⟨2025, 1, 1, 0, 0, 0⟩⟩
    ⟨[9, 8, 7], []⟩
    (by decide) (by decide) (by decide) (by decide) (Or.inl rfl)

/-- Claim C4: if any of the stripped `text`, `dialect`, `user_id` fields is
missing or empty, or no attachment is stored under the field name `file`,
the handler returns status 400 and performs no storage put. -/
theorem c4_validation (fd : List (LC × LC)) (fs : List (LC × FileAtt)) (env : ConvEnv)
    (h : pyStrip (getD fd textK) = [] ∨ pyStrip (getD fd dialectK) = [] ∨
         pyStrip (getD fd userK) = [] ∨ lookupA fs fileK = none) :
    (afterParse fd fs env).statusCode = 400 ∧ (afterParse fd fs env).puts = [] := by
  by_cases hm : pyStrip (getD fd textK) = [] ∨ pyStrip (getD fd dialectK) = [] ∨
      pyStrip (getD fd userK) = []
  · simp only [afterParse]
    rw [if_pos hm]
    exact ⟨rfl, rfl⟩
  · have hfile : lookupA fs fileK = none := by
      rcases h with h | h | h | h
      · exact absurd (Or.inl h) hm
      · exact absurd (Or.inr (Or.inl h)) hm
      · exact absurd (Or.inr (Or.inr h)) hm
      · exact h
    simp only [afterParse, hfile]
    rw [if_neg hm]
    exact ⟨rfl, rfl⟩

/-- Claim C4, witness: an empty form yields status 400 and no puts. -/
theorem c4_validation_witness :
    (afterParse [] [] ⟨false, RunOutcome.exited 0, false, [],
      ⟨2025, 1, 1, 0, 0, 0⟩⟩).statusCode = 400 ∧
    (afterParse [] [] ⟨false, RunOutcome.exited 0, false, [],
      ⟨2025, 1, 1, 0, 0, 0⟩⟩).puts = [] :=
  c4_validation [] [] ⟨false, RunOutcome.exited 0, false, [], ⟨2025, 1, 1, 0, 0, 0⟩⟩
    (Or.inl (by decide))

/-- Claim C9: a required field whose decoded value is whitespace-only is
treated exactly like a missing field (the same 400 missing-fields response),
and the `.strip()` applied at extraction is what every later step sees:
pre-stripping all form values changes nothing about the handler outcome. -/
theorem c9_strip (fd : List (LC × LC)) (fs : List (LC × FileAtt)) (env : ConvEnv) :
    ((getD fd textK).all pyWhite = true ∨ (getD fd dialectK).all pyWhite = true ∨
        (getD fd userK).all pyWhite = true →
      afterParse fd fs env = { statusCode := 400, message := missingMsgC, puts := [] }) ∧
    afterParse (fd.map (fun kv => (kv.1, pyStrip kv.2))) fs env = afterParse fd fs env := by
  constructor
  · intro hwhite
    have hm : pyStrip (getD fd textK) = [] ∨ pyStrip (getD fd dialectK) = [] ∨
        pyStrip (getD fd userK) = [] := by
      rcases hwhite with h | h | h
      · exact Or.inl (pyStrip_all_white _ h)
      · exact Or.inr (Or.inl (pyStrip_all_white _ h))
      · exact Or.inr (Or.inr (pyStrip_all_white _ h))
    simp only [afterParse]
    rw [if_pos hm]
  · have ht := getD_map_strip fd textK
    have hd := getD_map_strip fd dialectK
    have hu := getD_map_strip fd userK
    have htr := getD_map_strip fd translitK
    simp only [afterParse, ht, hd, hu, htr]

/-- Claim C9, witness: a space-only `text` field yields the same 400
missing-fields response as an absent one. -/
theorem c9_strip_witness :
    afterParse [(textK, [spCh])] []
      ⟨false, RunOutcome.exited 0, false, [], ⟨2025, 1, 1, 0, 0, 0⟩⟩ =
      { statusCode := 400, message := missingMsgC, puts := [] } :=
  (c9_strip [(textK, [spCh])] []
    ⟨false, RunOutcome.exited 0, false, [], ⟨2025, 1, 1, 0, 0, 0⟩⟩).1 (Or.inl (by decide))

/-- Claim C5, counterexample: the dialect `/` sanitizes to the empty string,
yet the generated base name does NOT contain `unknown` — its dialect
position is empty (`20250101-000000--a`), because line 223 keys the
`unknown` substitution on the dialect being empty BEFORE sanitization. -/
theorem c5_cex :
    filterReserved (String.toList "/") = [] ∧
    safeDialectOf (String.toList "/") = [] ∧
    mkBaseName (String.toList "a") (String.toList "/") [] ⟨2025, 1, 1, 0, 0, 0⟩ =
      String.toList "20250101-000000--a" ∧
    containsS (String.toList "unknown")
      (mkBaseName (String.toList "a") (String.toList "/") [] ⟨2025, 1, 1, 0, 0, 0⟩) = false := by
  exact ⟨by decide, by decide, by decide, by decide⟩

/-- Claim C5 (amended): `unknown` is substituted only when the dialect is
empty before sanitization; a nonempty dialect that sanitizes to empty
yields an EMPTY dialect position in the base name (not `unknown`), while an
empty dialect input does get the literal `unknown`. -/
theorem c5_amended (d : LC) (hne : d ≠ []) (hsan : filterReserved d = []) :
    safeDialectOf d = [] ∧
    (∀ (text tr : LC) (ts : Ts), mkBaseName text d tr ts =
      formatTs ts ++ [hyCh] ++ [hyCh] ++ safePreviewOf text ++
        (if safeTranslitOf tr = [] then [] else [hyCh, hyCh] ++ safeTranslitOf tr)) ∧
    safeDialectOf [] = String.toList "unknown" := by
  have hd : safeDialectOf d = [] := by simp [safeDialectOf, hne, hsan]
  refine ⟨hd, ?_, by decide⟩
  intro text tr ts
  by_cases htr : safeTranslitOf tr = []
  · rw [if_pos htr]
    simp [mkBaseName, htr, hd]
  · rw [if_neg htr]
    simp [mkBaseName, htr, hd]

/-- Claim C5, witness: at the dialect `/`, the dialect slot is empty and
the base name degenerates to timestamp, two hyphens, preview. -/
theorem c5_amended_witness :
    safeDialectOf (String.toList "/") = [] ∧
    mkBaseName (String.toList "b") (String.toList "/") [] ⟨2025, 1, 1, 0, 0, 0⟩ =
      formatTs ⟨2025, 1, 1, 0, 0, 0⟩ ++ [hyCh] ++ [hyCh] ++
        safePreviewOf (String.toList "b") ++
        (if safeTranslitOf [] = [] then [] else [hyCh, hyCh] ++ safeTranslitOf []) :=
  ⟨(c5_amended (String.toList "/") (by decide) (by decide)).1,
   (c5_amended (String.toList "/") (by decide) (by decide)).2.1
     (String.toList "b") [] ⟨2025, 1, 1, 0, 0, 0⟩⟩

set_option maxRecDepth 10000 in
/-- Claim C6, counterexample: the decoder uses `errors='ignore'`, not
`errors='replace'`: the invalid byte 255 in a text-field value is DROPPED,
producing the empty string rather than a replacement character U+FFFD, as a
full parse of a body carrying that value shows. -/
theorem c6_cex :
    utf8DecodeIgnore [255] = [] ∧
    utf8DecodeIgnore [255] ≠ [Char.ofNat 65533] ∧
    (parse_multipart (buildBody (String.toList "Bnd") [(textK, [255])] fileK
        (String.toList "a.bin") []) (String.toList "Bnd")).1 = [(textK, [])] := by
  exact ⟨rfl, by decide, rfl⟩

/-- Claim C6 (amended): decoding never raises and DROPS invalid bytes
(`errors='ignore'`): on any mix of ASCII bytes and the always-invalid byte
255, the result is exactly the ASCII bytes as characters with every 255
removed (and no replacement character inserted). -/
theorem c6_amended (bs : List Nat)
    (h : bs.all (fun b => decide (b < 128) || (b == 255)) = true) :
    utf8DecodeIgnore bs = (bs.filter (fun b => decide (b < 128))).map Char.ofNat := by
  induction bs with
  | nil => rfl
  | cons b rest ih =>
    simp only [List.all_cons, Bool.and_eq_true] at h
    obtain ⟨hb, hrest⟩ := h
    have ih2 := ih hrest
    cases rest with
    | nil =>
      by_cases hlt : b < 128
      · have h1 : decide (b < 128) = true := decide_eq_true hlt
        conv_lhs => rw [utf8DecodeIgnore.eq_def]
        simp only []
        rw [if_pos hlt]
        simp [List.filter_cons, h1]
      · have hd : decide (b < 128) = false := decide_eq_false hlt
        rw [hd, Bool.false_or] at hb
        have hb255 : b = 255 := by simpa using hb
        subst hb255
        decide
    | cons b2 r2 =>
      by_cases hlt : b < 128
      · have h1 : decide (b < 128) = true := decide_eq_true hlt
        rw [utf8_cc_ascii b b2 r2 hlt, ih2]
        simp [List.filter_cons, h1]
      · have hd : decide (b < 128) = false := decide_eq_false hlt
        rw [hd, Bool.false_or] at hb
        have hb255 : b = 255 := by simpa using hb
        subst hb255
        rw [utf8_cc_255, ih2]
        simp [List.filter_cons]

/-- Claim C6, witness: `Hi` with an invalid 255 between the two letters
decodes to the two ASCII characters with the invalid byte dropped. -/
theorem c6_amended_witness :
    ([72, 255, 105] : List Nat).all (fun b => decide (b < 128) || (b == 255)) = true ∧
    utf8DecodeIgnore [72, 255, 105] =
      (([72, 255, 105] : List Nat).filter (fun b => decide (b < 128))).map Char.ofNat :=
  ⟨by decide, c6_amended [72, 255, 105] (by decide)⟩

set_option maxRecDepth 10000 in
/-- Claim C7, counterexample: the claimed equivalence fails in the
right-to-left direction: with text `/ /` (whose safe preview is empty) and
dialect `a-`, the base name is `20250101-000000-a--`, which ends with the
`--` ++ transliteration suffix for the EMPTY sanitized transliteration even
though no transliteration was supplied. -/
theorem c7_cex :
    ¬ ((endsS ([hyCh, hyCh] ++ safeTranslitOf [])
          (mkBaseName (String.toList "/ /") (String.toList "a-") []
            ⟨2025, 1, 1, 0, 0, 0⟩) = true) ↔
        safeTranslitOf [] ≠ []) := by
  decide

/-- Claim C7 (amended): the base name never contains a reserved character
`< > : " / \ | *`, and STRUCTURALLY it is the timestamp-dialect-preview
core with `--` ++ sanitized transliteration appended exactly when the
sanitized transliteration is nonempty (the suffix-of-the-string form of the
claim can fail when the core itself happens to end in `--`). -/
theorem c7_amended (text dialect tr : LC) (ts : Ts) :
    (mkBaseName text dialect tr ts).all (fun c => !(reservedCh c)) = true ∧
    mkBaseName text dialect tr ts =
      coreNameOf text dialect ts ++
        (if safeTranslitOf tr = [] then [] else [hyCh, hyCh] ++ safeTranslitOf tr) := by
  have hfmt := formatTs_all (fun c => !(reservedCh c)) digCh_not_reserved (by decide) ts
  have hdia := safeDialectOf_all dialect
  have hprev := safePreviewOf_all text
  have htr2 := safeTranslitOf_all tr
  constructor
  · unfold mkBaseName
    by_cases htr : safeTranslitOf tr = []
    · rw [if_pos htr]
      simp only [List.all_append, Bool.and_eq_true]
      refine ⟨⟨⟨⟨hfmt, by decide⟩, hdia⟩, by decide⟩, hprev⟩
    · rw [if_neg htr]
      simp only [List.all_append, Bool.and_eq_true]
      refine ⟨⟨⟨⟨⟨⟨hfmt, by decide⟩, hdia⟩, by decide⟩, hprev⟩, by decide⟩, htr2⟩
  · unfold mkBaseName coreNameOf
    by_cases htr : safeTranslitOf tr = []
    · rw [if_pos htr, if_pos htr]
      simp
    · rw [if_neg htr, if_neg htr]
      simp

/-- Claim C8, counterexample: `.strip()` at line 221 removes MORE than
spaces: a trailing tab in the sanitized text (`a` followed by TAB) is
present after space removal but absent from the final preview, refuting
"every other whitespace character present in the sanitized text is
preserved". -/
theorem c8_cex :
    (filterReserved ('a' :: [Char.ofNat 9])).contains (Char.ofNat 9) = true ∧
    (remSpaces (rawPreviewOf ('a' :: [Char.ofNat 9]))).contains (Char.ofNat 9) = true ∧
    (safePreviewOf ('a' :: [Char.ofNat 9])).contains (Char.ofNat 9) = false ∧
    safePreviewOf ('a' :: [Char.ofNat 9]) = ['a'] := by
  exact ⟨by decide, by decide, by decide, by decide⟩

/-- Claim C8 (amended): the preview step removes all spaces and then strips
leading/trailing whitespace; the final preview never contains a space, and
INTERIOR non-space whitespace is preserved: whenever the space-free
sanitized text neither starts nor ends with whitespace, it is returned
unchanged (tabs and friends in the middle survive). -/
theorem c8_amended (text : LC) (d : Char)
    (hne : remSpaces (rawPreviewOf text) ≠ [])
    (hh : pyWhite ((remSpaces (rawPreviewOf text)).headD d) = false)
    (hl : pyWhite ((remSpaces (rawPreviewOf text)).getLastD d) = false) :
    (safePreviewOf text).contains spCh = false ∧
    safePreviewOf text = remSpaces (rawPreviewOf text) := by
  have heq : safePreviewOf text = remSpaces (rawPreviewOf text) := by
    unfold safePreviewOf
    exact pyStrip_eq_self _ d hne hh hl
  refine ⟨?_, heq⟩
  rw [heq]
  apply contains_false_of_all_ne
  unfold remSpaces
  exact all_filter_self _ _

/-- Claim C8, witness: `x` TAB `y` keeps its interior tab in the preview
and contains no space. -/
theorem c8_amended_witness :
    (safePreviewOf ('x' :: Char.ofNat 9 :: ['y'])).contains spCh = false ∧
    safePreviewOf ('x' :: Char.ofNat 9 :: ['y']) =
      remSpaces (rawPreviewOf ('x' :: Char.ofNat 9 :: ['y'])) :=
  c8_amended ('x' :: Char.ofNat 9 :: ['y']) 'x' (by decide) (by decide) (by decide)
